import Mathlib

/-!
Verification of the Aho-Corasick pattern finder of `src/aho_corasick.rs`.

The Rust code builds a trie of `State` nodes connected by `Rc<RefCell<_>>`
pointers.  Every state is created by `add_pattern` while walking from the
root along the characters of a pattern, so each state is reachable from the
root by exactly one trie path and is identified here by that path, a
`List Char` prefix of some pattern.  The mutable pointer graph is embedded
as explicit finite maps over these prefixes:

* `isNode P w` — whether the trie built from pattern list `P` has a state
  for prefix `w` (the root `[]` always exists);
* `childrenOf P w` — the child states of `w` (the values of the Rust
  `next_states` hash map; the hash iteration order is unspecified in Rust,
  the embedding fixes the order of first appearance in `P`);
* a `FailMap` for the `fail_state` fields (`none` = the Rust `None`);
* an `OutMap` for the `output` hash sets, as duplicate-free lists.

`set_fail_states` is embedded operationally as the very same breadth-first
queue loop as the source, with an explicit fuel (the loop provably
terminates; fuel exhaustion and the `unwrap` panics are modelled by
`Option`).  `find_patterns` is a fold over `char_indices`, i.e. the char
list paired with running UTF-8 byte offsets; the Rust expression
`1 + i - pattern.len()` operates on `usize` byte quantities and panics on
underflow, which the embedding models by returning `none`.
-/

namespace AhoCorasick

/-- A Rust `String` viewed as its sequence of `char` scalar values. -/
abbrev Str := List Char

/-- Rust `char::len_utf8`: the number of bytes of the UTF-8 encoding. -/
def utf8Len (c : Char) : Nat :=
  if c.toNat < 0x80 then 1
  else if c.toNat < 0x800 then 2
  else if c.toNat < 0x10000 then 3
  else 4

/-- Rust `String::len`: the length in UTF-8 bytes (not chars). -/
def byteLen (s : Str) : Nat := (s.map utf8Len).sum

/-- The byte offset produced by `char_indices` for the `k`-th char of `t`. -/
def byteIdx (t : Str) (k : Nat) : Nat := byteLen (t.take k)

/-- The trie built by the `add_pattern` calls of `PatternFinder::new` has a
state for every prefix of every pattern, plus the root `[]`. -/
def isNode (P : List Str) (w : Str) : Bool :=
  w.isEmpty || P.any (fun p => w.isPrefixOf p)

/-- The child states stored in `next_states` of state `w`: all trie nodes
extending `w` by one char, listed in order of first appearance in `P`. -/
def childrenOf (P : List Str) (w : Str) : List Str :=
  (P.filterMap (fun p =>
    if w.length < p.length ∧ w.isPrefixOf p then some (p.take (w.length + 1)) else none)).dedup

/-- The `output` set of state `w` right after the `add_pattern` phase:
`add_pattern` inserts each pattern into the `output` of its final state. -/
def patOutput (P : List Str) (w : Str) : List Str :=
  if w ∈ P then [w] else []

/-- The `fail_state` fields: `none` is the Rust `None` (root, or not yet set). -/
abbrev FailMap := Str → Option Str

/-- The `output` hash sets, as duplicate-free lists. -/
abbrev OutMap := Str → List Str

/-- `HashSet::extend`: add the members of `b` missing from `a`. -/
def extendSet (a b : List Str) : List Str := a ++ b.filter (fun p => decide (p ∉ a))

/-- `State::next_state`: direct child on `x` if present, else recurse on the
failure link; a state without a failure link (the root, or an unlinked state
during construction) answers `none`.  The recursion of the source is embedded
with fuel; every use below supplies provably sufficient fuel. -/
def nextState (P : List Str) (fm : FailMap) : Nat → Str → Char → Option Str
  | 0, _, _ => none
  | fuel+1, s, x =>
    if isNode P (s ++ [x]) then some (s ++ [x])
    else
      match fm s with
      | some f => nextState P fm fuel f x
      | none => none

/-- `State::set_fail_state` on state `c` with target `tgt`: store the failure
link and extend `c`'s output with the target's output. -/
def setFailState (c tgt : Str) (st : FailMap × OutMap) : FailMap × OutMap :=
  (fun u => if u = c then some tgt else st.1 u,
   fun u => if u = c then extendSet (st.2 u) (st.2 tgt) else st.2 u)

/-- One iteration of the inner loop of `set_fail_states` for a child `c` of
the dequeued state, whose failure link is `f`: resolve
`fail(state).next_state(child_value)` and set the child's failure link to the
result, or to the root when the resolution fails. -/
def processChild (P : List Str) (f : Str) (st : FailMap × OutMap) (c : Str) :
    FailMap × OutMap :=
  match nextState P st.1 (f.length + 1) f (c.getLastD 'A') with
  | some tgt => setFailState c tgt st
  | none => setFailState c [] st

/-- The `while !queue.is_empty()` loop of `set_fail_states`: dequeue a state,
set the failure links of all its children and enqueue them.  The
`state.fail_state.unwrap()` of the source is the inner `match` (`none` models
the panic); the fuel models termination of the loop. -/
def setFailStatesGo (P : List Str) : Nat → List Str → FailMap × OutMap →
    Option (FailMap × OutMap)
  | _, [], st => some st
  | 0, _ :: _, _ => none
  | fuel+1, w :: rest, st =>
    match st.1 w with
    | none => none
    | some f => setFailStatesGo P fuel (rest ++ childrenOf P w)
        ((childrenOf P w).foldl (processChild P f) st)

/-- The seeding loop of `set_fail_states`: every child of the root gets the
root as failure target (and inherits the root's output).  The starting maps
are the state after the `add_pattern` phase: no failure links, `patOutput`
as output sets. -/
def seedState (P : List Str) : FailMap × OutMap :=
  (childrenOf P []).foldl (fun st c => setFailState c [] st)
    (fun _ => none, patOutput P)

/-- Fuel bound for the construction loop: every state is enqueued at most
once, so twice the number of pattern prefixes amply bounds the queue work. -/
def buildFuel (P : List Str) : Nat := 2 * ((P.map List.inits).flatten).length + 1

/-- The built automaton: the pattern list (standing for the trie edges) plus
the failure links and output sets produced by `set_fail_states`. -/
structure PatternFinder where
  pats : List Str
  fail : FailMap
  out : OutMap

/-- `PatternFinder::new`: insert all patterns, then compute failure links. -/
def PatternFinder.new (P : List Str) : Option PatternFinder :=
  match setFailStatesGo P (buildFuel P) (childrenOf P []) (seedState P) with
  | some st => some ⟨P, st.1, st.2⟩
  | none => none

/-- The `HashMap<String, Vec<usize>>` result as an association list with
duplicate-free keys; `result.entry(p).or_default().push(o)`. -/
abbrev MatchRes := List (Str × List Nat)

/-- `result.entry(p).or_default().push(o)` on the association list. -/
def pushMatch : MatchRes → Str → Nat → MatchRes
  | [], p, o => [(p, [o])]
  | (q, l) :: rest, p, o =>
    if q = p then (q, l ++ [o]) :: rest else (q, l) :: pushMatch rest p o

/-- Lookup in the result map (`HashMap` equality ignores entry order, so all
properties below are phrased through `alookup`). -/
def alookup : MatchRes → Str → Option (List Nat)
  | [], _ => none
  | (q, l) :: rest, p => if q = p then some l else alookup rest p

/-- The `for pattern in new_state.output` loop at one text position with byte
offset `i`: push `1 + i - pattern.len()` for every pattern of the output set;
`none` models the `usize` underflow panic when `pattern.len() > 1 + i`. -/
def pushAll (ps : List Str) (i : Nat) (res : MatchRes) : Option MatchRes :=
  ps.foldlM (fun r p =>
    if 1 + i < byteLen p then none else some (pushMatch r p (1 + i - byteLen p))) res

/-- The `for (i, c) in text.char_indices()` loop of `find_patterns`: `s` is
the current state, `i` the running byte offset.  On a failed transition the
state resets to the root and nothing is recorded. -/
def findPatternsGo (P : List Str) (fm : FailMap) (om : OutMap) :
    List Char → Str → Nat → MatchRes → Option MatchRes
  | [], _, _, res => some res
  | c :: rest, s, i, res =>
    match nextState P fm (s.length + 1) s c with
    | some v =>
      match pushAll (om v) i res with
      | some res' => findPatternsGo P fm om rest v (i + utf8Len c) res'
      | none => none
    | none => findPatternsGo P fm om rest [] (i + utf8Len c) res

/-- `PatternFinder::find_patterns`. -/
def PatternFinder.findPatterns (pf : PatternFinder) (text : List Char) :
    Option MatchRes :=
  findPatternsGo pf.pats pf.fail pf.out text [] 0 []

/-- Building from `P` and searching `text`, as one function. -/
def findPatternsO (P : List Str) (text : List Char) : Option MatchRes :=
  match PatternFinder.new P with
  | some pf => pf.findPatterns text
  | none => none

/-- The failure link of state `w` in the automaton built from `P`. -/
def failOf (P : List Str) (w : Str) : Option Str :=
  match PatternFinder.new P with
  | some pf => pf.fail w
  | none => none

/-- The output set of state `w` in the automaton built from `P`. -/
def outOf (P : List Str) (w : Str) : List Str :=
  match PatternFinder.new P with
  | some pf => pf.out w
  | none => []

/-- `next_state` on the built automaton, with explicit fuel. -/
def nextOf (P : List Str) (fuel : Nat) (s : Str) (x : Char) : Option Str :=
  match PatternFinder.new P with
  | some pf => nextState P pf.fail fuel s x
  | none => none

/-- Iterate the failure links of the built automaton `n` times (stopping at
the root); `none` when a link is missing. -/
def failIter (P : List Str) : Nat → Str → Option Str
  | 0, w => some w
  | n+1, w => if w = [] then some [] else (failOf P w).bind (failIter P n)

/-- Specification side: the longest non-empty suffix of `l` that is a trie
node, scanning suffixes from the longest down. -/
def lms (P : List Str) : Str → Option Str
  | [] => none
  | x :: l => if isNode P (x :: l) then some (x :: l) else lms P l

/-- The longest suffix of `l` that is a trie node (the root `[]` counts). -/
def lns (P : List Str) (l : Str) : Str := (lms P l).getD []

/-- Specification side: the failure link demanded by the glossary — the
longest proper suffix of `w` that is a trie node. -/
def idealFail (P : List Str) (w : Str) : Str := lns P (w.drop 1)

/-- Whether the matcher records pattern `p` at scan position `k` (0-based
char position): `p` must be a pattern, a suffix of the first `k+1` chars,
and some transition must succeed there (the latter only restricts the empty
pattern). -/
def matchedAt (P : List Str) (t : List Char) (k : Nat) (p : Str) : Bool :=
  decide (p ∈ P) && p.isSuffixOf (t.take (k+1)) && (lms P (t.take (k+1))).isSome

/-- The offsets the matcher records for pattern `p` on text `t`, position by
position, with the byte arithmetic of the source. -/
def matchOffsets (P : List Str) (t : List Char) (p : Str) : List Nat :=
  (List.range t.length).filterMap
    (fun k => if matchedAt P t k p then some (1 + byteIdx t k - byteLen p) else none)

/-- `none` for the empty list: a pattern with no recorded match never gets a
key in the result map. -/
def optList (l : List Nat) : Option (List Nat) := if l = [] then none else some l

/-- The `1 + i - pattern.len()` underflow condition: some recorded pattern's
byte length exceeds `1 +` the byte offset of the char ending the match. -/
def hasUnderflow (P : List Str) (t : List Char) : Prop :=
  ∃ k, k < t.length ∧ ∃ p, matchedAt P t k p = true ∧ 1 + byteIdx t k < byteLen p

/-! ### Basic toolkit: trie nodes and suffixes -/

theorem isNode_iff {P : List Str} {w : Str} :
    isNode P w = true ↔ w = [] ∨ ∃ p ∈ P, w <+: p := by
  simp [isNode, List.isEmpty_iff, List.any_eq_true]

theorem isNode_nil (P : List Str) : isNode P [] = true := by
  simp [isNode]

theorem node_of_memP {P : List Str} {p : Str} (h : p ∈ P) : isNode P p = true :=
  isNode_iff.mpr (Or.inr ⟨p, h, List.prefix_refl p⟩)

theorem isNode_of_prefix {P : List Str} {u w : Str} (h : u <+: w)
    (hw : isNode P w = true) : isNode P u = true := by
  rcases isNode_iff.mp hw with rfl | ⟨p, hp, hwp⟩
  · have hu : u = [] := List.prefix_nil.mp h
    simp [hu, isNode_nil]
  · exact isNode_iff.mpr (Or.inr ⟨p, hp, h.trans hwp⟩)

theorem suffix_compar {u v l : Str} (hu : u <:+ l) (hv : v <:+ l)
    (h : u.length ≤ v.length) : u <:+ v := by
  rw [List.suffix_iff_eq_drop] at hu hv
  rw [hu, hv]
  exact List.drop_suffix_drop_left l (Nat.sub_le_sub_left h l.length)

theorem proper_suffix_tail {u s : Str} (h : u <:+ s) (hne : u ≠ s) : u <:+ s.drop 1 := by
  rcases h with ⟨w, rfl⟩
  cases w with
  | nil => simp at hne
  | cons a t =>
    simp only [List.cons_append, List.drop_succ_cons, List.drop_zero]
    exact List.suffix_append t u

theorem suffix_snoc_mono {u s : Str} {x : Char} (h : u <:+ s) : u ++ [x] <:+ s ++ [x] := by
  rcases h with ⟨w, rfl⟩
  exact ⟨w, by simp⟩

/-! ### The longest node suffix, and the ideal failure function -/

theorem lms_cons_pos {P : List Str} {x : Char} {t : Str} (h : isNode P (x :: t) = true) :
    lms P (x :: t) = some (x :: t) := by
  simp [lms, h]

theorem lms_cons_neg {P : List Str} {x : Char} {t : Str} (h : isNode P (x :: t) = false) :
    lms P (x :: t) = lms P t := by
  simp [lms, h]

theorem lms_pos {P : List Str} {l : Str} (hne : l ≠ []) (h : isNode P l = true) :
    lms P l = some l := by
  cases l with
  | nil => simp at hne
  | cons x t => exact lms_cons_pos h

theorem lms_spec {P : List Str} {l v : Str} (h : lms P l = some v) :
    v <:+ l ∧ v ≠ [] ∧ isNode P v = true ∧
      ∀ u, u <:+ l → u ≠ [] → isNode P u = true → u.length ≤ v.length := by
  induction l with
  | nil => exact absurd h (by simp [lms])
  | cons x t ih =>
    cases hn : isNode P (x :: t) with
    | true =>
      rw [lms_cons_pos hn] at h
      obtain rfl : x :: t = v := by injection h
      refine ⟨List.suffix_refl _, by simp, hn, ?_⟩
      intro u hu _ _
      exact hu.length_le
    | false =>
      rw [lms_cons_neg hn] at h
      obtain ⟨hsuf, hne, hnode, hmax⟩ := ih h
      refine ⟨hsuf.trans (List.suffix_cons x t), hne, hnode, ?_⟩
      intro u hu hune hun
      rcases List.suffix_cons_iff.mp hu with rfl | hu'
      · rw [hn] at hun; simp at hun
      · exact hmax u hu' hune hun

theorem lms_none {P : List Str} {l : Str} (h : lms P l = none) :
    ∀ u, u <:+ l → u ≠ [] → isNode P u = true → False := by
  induction l with
  | nil =>
    intro u hu hne _
    exact hne (List.suffix_nil.mp hu)
  | cons x t ih =>
    cases hn : isNode P (x :: t) with
    | true => rw [lms_cons_pos hn] at h; exact absurd h (by simp)
    | false =>
      rw [lms_cons_neg hn] at h
      intro u hu hune hun
      rcases List.suffix_cons_iff.mp hu with rfl | hu'
      · rw [hn] at hun; simp at hun
      · exact ih h u hu' hune hun

theorem lms_congr {P : List Str} {a b : Str}
    (h : ∀ v, v ≠ [] → isNode P v = true → (v <:+ a ↔ v <:+ b)) :
    lms P a = lms P b := by
  cases ha : lms P a with
  | none =>
    cases hb : lms P b with
    | none => rfl
    | some v =>
      obtain ⟨hs, hne, hn, _⟩ := lms_spec hb
      exact absurd ((h v hne hn).mpr hs) (fun hsa => lms_none ha v hsa hne hn)
  | some v =>
    obtain ⟨hs, hne, hn, hmax⟩ := lms_spec ha
    cases hb : lms P b with
    | none => exact absurd ((h v hne hn).mp hs) (fun hsb => lms_none hb v hsb hne hn)
    | some u =>
      obtain ⟨hs', hne', hn', hmax'⟩ := lms_spec hb
      have h2 : u <:+ a := (h u hne' hn').mpr hs'
      have e1 : v.length ≤ u.length := hmax' v ((h v hne hn).mp hs) hne hn
      have e2 : u.length ≤ v.length := hmax u h2 hne' hn'
      have huv : u <:+ v := suffix_compar h2 hs e2
      rw [huv.sublist.eq_of_length (by omega)]

theorem lns_suffix (P : List Str) (l : Str) : lns P l <:+ l := by
  unfold lns
  cases h : lms P l with
  | none => exact List.nil_suffix
  | some v => simpa using (lms_spec h).1

theorem lns_node (P : List Str) (l : Str) : isNode P (lns P l) = true := by
  unfold lns
  cases h : lms P l with
  | none => simpa using isNode_nil P
  | some v => simpa using (lms_spec h).2.2.1

theorem lns_max {P : List Str} {l u : Str} (hu : u <:+ l) (hn : isNode P u = true) :
    u <:+ lns P l := by
  rcases eq_or_ne u [] with rfl | hne
  · exact List.nil_suffix
  · cases h : lms P l with
    | none => exact absurd (lms_none h u hu hne hn) (by simp)
    | some v =>
      obtain ⟨hs, _, _, hmax⟩ := lms_spec h
      have huv : u <:+ v := suffix_compar hu hs (hmax u hu hne hn)
      simpa [lns, h] using huv

theorem lms_snoc_lns (P : List Str) (t : Str) (x : Char) :
    lms P (t ++ [x]) = lms P (lns P t ++ [x]) := by
  apply lms_congr
  intro v hne hn
  constructor
  · intro hv
    rcases List.suffix_concat_iff.mp hv with rfl | ⟨u, rfl, hu⟩
    · exact absurd rfl hne
    · have hun : isNode P u = true := isNode_of_prefix (List.prefix_append u [x]) hn
      exact suffix_snoc_mono (lns_max hu hun)
  · intro hv
    rcases List.suffix_concat_iff.mp hv with rfl | ⟨u, rfl, hu⟩
    · exact absurd rfl hne
    · exact suffix_snoc_mono (hu.trans (lns_suffix P t))

theorem idealFail_suffix {P : List Str} {w : Str} : idealFail P w <:+ w :=
  (lns_suffix P (w.drop 1)).trans (List.drop_suffix 1 w)

theorem idealFail_length {P : List Str} {w : Str} (h : w ≠ []) :
    (idealFail P w).length < w.length := by
  have h1 := (lns_suffix P (w.drop 1)).length_le
  have h2 : w.length ≠ 0 := fun h0 => h (List.length_eq_zero.mp h0)
  have h3 : (w.drop 1).length = w.length - 1 := List.length_drop 1 w
  unfold idealFail
  omega

theorem idealFail_node (P : List Str) (w : Str) : isNode P (idealFail P w) = true :=
  lns_node P (w.drop 1)

theorem idealFail_max {P : List Str} {w u : Str} (hu : u <:+ w) (hne : u ≠ w)
    (hn : isNode P u = true) : u <:+ idealFail P w :=
  lns_max (proper_suffix_tail hu hne) hn

/-- A node suffix of `c` is `c` itself or a suffix of `c`'s ideal failure
target: the failure chain collects exactly the node suffixes. -/
theorem suffix_split {P : List Str} {c p : Str} (hp : isNode P p = true) :
    p <:+ c ↔ p = c ∨ p <:+ idealFail P c := by
  constructor
  · intro h
    rcases eq_or_ne p c with rfl | hne
    · exact Or.inl rfl
    · exact Or.inr (idealFail_max h hne hp)
  · rintro (rfl | h)
    · exact List.suffix_refl _
    · exact h.trans idealFail_suffix

theorem idealFail_snoc {P : List Str} {w : Str} (hw : w ≠ []) (x : Char) :
    idealFail P (w ++ [x]) = lns P (idealFail P w ++ [x]) := by
  have h1 : (w ++ [x]).drop 1 = w.drop 1 ++ [x] := by
    cases w with
    | nil => simp at hw
    | cons a t => simp
  show lns P ((w ++ [x]).drop 1) = lns P (idealFail P w ++ [x])
  rw [h1]
  show (lms P (w.drop 1 ++ [x])).getD [] = (lms P (idealFail P w ++ [x])).getD []
  rw [lms_snoc_lns P (w.drop 1) x]
  rfl

/-! ### `next_state` resolves to the longest node suffix -/

/-- All set failure links are the ideal ones (and only non-root nodes have
them set). -/
def SoundF (P : List Str) (fm : FailMap) : Prop :=
  ∀ w v, fm w = some v → isNode P w = true ∧ w ≠ [] ∧ v = idealFail P w

/-- All non-root nodes of length at most `n` have their failure link set. -/
def SetBelow (P : List Str) (fm : FailMap) (n : Nat) : Prop :=
  ∀ w, isNode P w = true → w ≠ [] → w.length ≤ n → (fm w).isSome = true

theorem soundF_root {P : List Str} {fm : FailMap} (hs : SoundF P fm) : fm [] = none := by
  cases hfm : fm [] with
  | none => rfl
  | some v => exact absurd (hs [] v hfm).2.1 (by simp)

theorem nextState_ideal {P : List Str} {fm : FailMap} (hs : SoundF P fm) {N : Nat}
    (hb : SetBelow P fm N) :
    ∀ n s, s.length ≤ n → s.length ≤ N → isNode P s = true →
      ∀ fuel, s.length + 1 ≤ fuel → ∀ x,
        nextState P fm fuel s x = lms P (s ++ [x]) := by
  intro n
  induction n with
  | zero =>
    intro s hlen _ _ fuel hfuel x
    obtain rfl : s = [] := List.length_eq_zero.mp (Nat.le_zero.mp hlen)
    obtain ⟨m, rfl⟩ : ∃ m, fuel = m + 1 := ⟨fuel - 1, by omega⟩
    cases hn : isNode P ([] ++ [x]) with
    | true =>
      rw [nextState, if_pos hn, lms_pos (by simp) hn]
    | false =>
      rw [nextState, if_neg (by simp_all), soundF_root hs]
      rw [show ([] : Str) ++ [x] = [x] from rfl] at hn
      rw [show ([] : Str) ++ [x] = [x] from rfl, lms_cons_neg hn]
      rfl
  | succ n ih =>
    intro s hlen hN hnode fuel hfuel x
    rcases eq_or_ne s [] with rfl | hne
    · exact ih [] (by simp) (by simp) (isNode_nil P) fuel (by simpa using hfuel) x
    obtain ⟨m, rfl⟩ : ∃ m, fuel = m + 1 := ⟨fuel - 1, by omega⟩
    cases hn : isNode P (s ++ [x]) with
    | true =>
      rw [nextState, if_pos hn, lms_pos (by simp) hn]
    | false =>
      rw [nextState, if_neg (by simp [hn])]
      have hset := hb s hnode hne hN
      cases hfm : fm s with
      | none => rw [hfm] at hset; simp at hset
      | some f =>
        obtain ⟨-, -, rfl⟩ := hs s f hfm
        have hflen : (idealFail P s).length < s.length := idealFail_length hne
        have hstep := ih (idealFail P s) (by omega) (by omega) (idealFail_node P s)
          m (by omega) x
        show nextState P fm m (idealFail P s) x = lms P (s ++ [x])
        rw [hstep]
        obtain ⟨y, t, rfl⟩ : ∃ y t, s = y :: t := by
          cases s with
          | nil => simp at hne
          | cons y t => exact ⟨y, t, rfl⟩
        have hcons : isNode P (y :: (t ++ [x])) = false := by simpa using hn
        calc lms P (idealFail P (y :: t) ++ [x])
            = lms P (lns P t ++ [x]) := rfl
          _ = lms P (t ++ [x]) := (lms_snoc_lns P t x).symm
          _ = lms P (y :: t ++ [x]) := by rw [show (y :: t) ++ [x] = y :: (t ++ [x]) from rfl, lms_cons_neg hcons]

/-! ### Children, the node list, and output-set primitives -/

theorem childrenOf_mem {P : List Str} {w c : Str} :
    c ∈ childrenOf P w ↔ isNode P c = true ∧ c.length = w.length + 1 ∧ w <+: c := by
  unfold childrenOf
  rw [List.mem_dedup, List.mem_filterMap]
  constructor
  · rintro ⟨p, hp, h⟩
    split at h
    · rename_i hcond
      obtain rfl : p.take (w.length + 1) = c := by injection h
      have hlen : (p.take (w.length + 1)).length = w.length + 1 := by
        rw [List.length_take]
        omega
      refine ⟨isNode_iff.mpr (Or.inr ⟨p, hp, List.take_prefix _ p⟩), hlen, ?_⟩
      have hw : w = p.take w.length := List.prefix_iff_eq_take.mp
        (List.isPrefixOf_iff_prefix.mp hcond.2)
      have hmin : min w.length (w.length + 1) = w.length := by omega
      rw [List.prefix_iff_eq_take, List.take_take, hmin]
      exact hw
    · exact absurd h (by simp)
  · rintro ⟨hn, hlen, hpre⟩
    rcases isNode_iff.mp hn with rfl | ⟨p, hp, hcp⟩
    · simp at hlen
    · refine ⟨p, hp, ?_⟩
      have h1 : w.length < p.length := by
        have := hcp.length_le
        omega
      rw [if_pos ⟨h1, List.isPrefixOf_iff_prefix.mpr (hpre.trans hcp)⟩]
      have : c = p.take c.length := List.prefix_iff_eq_take.mp hcp
      rw [hlen] at this
      rw [← this]

theorem childrenOf_nodup (P : List Str) (w : Str) : (childrenOf P w).Nodup :=
  List.nodup_dedup _

theorem childrenOf_shape {P : List Str} {w c : Str} (h : c ∈ childrenOf P w) :
    c = w ++ [c.getLastD 'A'] ∧ c.dropLast = w ∧ c ≠ [] := by
  obtain ⟨-, hlen, hpre⟩ := childrenOf_mem.mp h
  obtain ⟨t, rfl⟩ := hpre
  have : t.length = 1 := by
    rw [List.length_append] at hlen
    omega
  obtain ⟨a, rfl⟩ := List.length_eq_one.mp this
  refine ⟨by simp, by simp, by simp⟩

theorem mem_childrenOf_dropLast {P : List Str} {w : Str} (hn : isNode P w = true)
    (hne : w ≠ []) : w ∈ childrenOf P w.dropLast := by
  refine childrenOf_mem.mpr ⟨hn, ?_, List.dropLast_prefix w⟩
  have : w.length ≠ 0 := fun h => hne (List.length_eq_zero.mp h)
  rw [List.length_dropLast]
  omega

/-- The distinct trie nodes (prefixes of patterns; the root may or may not be
listed, it is never counted below). -/
def nodesList (P : List Str) : List Str := ((P.map List.inits).flatten).dedup

theorem mem_nodesList {P : List Str} {w : Str} :
    w ∈ nodesList P ↔ ∃ p ∈ P, w <+: p := by
  unfold nodesList
  rw [List.mem_dedup, List.mem_flatten]
  constructor
  · rintro ⟨l, hl, hw⟩
    obtain ⟨p, hp, rfl⟩ := List.mem_map.mp hl
    exact ⟨p, hp, (List.mem_inits _ _).mp hw⟩
  · rintro ⟨p, hp, hw⟩
    exact ⟨List.inits p, List.mem_map_of_mem List.inits hp, (List.mem_inits _ _).mpr hw⟩

theorem nodesList_nodup (P : List Str) : (nodesList P).Nodup := List.nodup_dedup _

/-- The number of non-root trie nodes with an unset failure link. -/
def unsetCount (P : List Str) (fm : FailMap) : Nat :=
  ((nodesList P).filter (fun w => decide (w ≠ []) && (fm w).isNone)).length

theorem patOutput_mem {P : List Str} {w p : Str} :
    p ∈ patOutput P w ↔ p = w ∧ w ∈ P := by
  unfold patOutput
  split <;> simp_all

theorem patOutput_nodup (P : List Str) (w : Str) : (patOutput P w).Nodup := by
  unfold patOutput
  split <;> simp

theorem extendSet_mem {a b : List Str} {p : Str} :
    p ∈ extendSet a b ↔ p ∈ a ∨ p ∈ b := by
  simp only [extendSet, List.mem_append, List.mem_filter, decide_eq_true_eq]
  tauto

theorem extendSet_nodup {a b : List Str} (ha : a.Nodup) (hb : b.Nodup) :
    (extendSet a b).Nodup := by
  refine List.Nodup.append ha (hb.filter _) ?_
  intro x hxa hxb
  rw [List.mem_filter] at hxb
  exact (decide_eq_true_eq.mp hxb.2) hxa

/-! ### Counting lemmas for the termination fuel -/

theorem filter_length_split {α : Type} (q : α → Bool) :
    ∀ l : List α, (l.filter q).length + (l.filter (fun a => !q a)).length = l.length := by
  intro l
  induction l with
  | nil => rfl
  | cons a t ih =>
    cases h : q a <;> simp [List.filter_cons, h, Nat.succ_eq_add_one] <;> omega

theorem unsetCount_dec {P : List Str} {fm fm' : FailMap} {cs : List Str}
    (hnodup : cs.Nodup)
    (hmem : ∀ c ∈ cs, c ∈ nodesList P ∧ c ≠ [] ∧ fm c = none)
    (hkeep : ∀ u, u ∉ cs → fm' u = fm u)
    (hset : ∀ c ∈ cs, (fm' c).isSome = true) :
    unsetCount P fm' + cs.length = unsetCount P fm := by
  classical
  unfold unsetCount
  set L := nodesList P with hL
  set p := fun w => decide (w ≠ []) && (fm w).isNone with hp
  have hstep : L.filter (fun w => decide (w ≠ []) && (fm' w).isNone) =
      (L.filter p).filter (fun w => !decide (w ∈ cs)) := by
    rw [List.filter_filter]
    apply List.filter_congr
    intro w _
    by_cases hw : w ∈ cs
    · have h1 := hset w hw
      have h2 : (fm' w).isNone = false := by
        cases hfm' : fm' w with
        | none => rw [hfm'] at h1; simp at h1
        | some v => simp [hfm']
      simp [hw, h2, hp]
    · rw [hkeep w hw]
      simp [hw, hp]
  rw [hstep]
  -- the removed elements are exactly `cs`
  have hsub : ∀ c ∈ cs, c ∈ L.filter p := by
    intro c hc
    obtain ⟨h1, h2, h3⟩ := hmem c hc
    rw [List.mem_filter]
    exact ⟨h1, by simp [hp, h2, h3]⟩
  have hperm : List.Perm ((L.filter p).filter (fun w => decide (w ∈ cs))) cs := by
    rw [List.perm_ext_iff_of_nodup (((nodesList_nodup P).filter _).filter _) hnodup]
    intro a
    simp only [List.mem_filter, decide_eq_true_eq]
    constructor
    · rintro ⟨-, h⟩; exact h
    · intro h; exact ⟨List.mem_filter.mp (hsub a h), h⟩
  have hsplit := filter_length_split (fun w => decide (w ∈ cs)) (L.filter p)
  have hlen := hperm.length_eq
  omega

theorem length_le_flatten_inits (P : List Str) :
    P.length ≤ ((P.map List.inits).flatten).length := by
  induction P with
  | nil => simp
  | cons p t ih =>
    simp only [List.map_cons, List.flatten_cons, List.length_append, List.length_cons]
    have : 1 ≤ (List.inits p).length :=
      List.length_pos_of_mem ((List.mem_inits _ _).mpr List.nil_prefix)
    omega

theorem unsetCount_le (P : List Str) (fm : FailMap) :
    unsetCount P fm ≤ ((P.map List.inits).flatten).length :=
  Nat.le_trans (List.Sublist.length_le (List.filter_sublist _))
    (List.Sublist.length_le (List.dedup_sublist _))

theorem childrenOf_root_length_le (P : List Str) :
    (childrenOf P []).length ≤ ((P.map List.inits).flatten).length := by
  refine Nat.le_trans (List.Sublist.length_le (List.dedup_sublist _)) ?_
  exact Nat.le_trans (List.length_filterMap_le _ _) (length_le_flatten_inits P)

/-! ### The `set_fail_states` loop: one child, then a whole child list -/

/-- The output set of `u` is correct and duplicate-free: exactly the patterns
that are suffixes of `u`'s defining prefix. -/
def OmChar (P : List Str) (om : OutMap) (u : Str) : Prop :=
  (om u).Nodup ∧ ∀ p, p ∈ om u ↔ p ∈ P ∧ p <:+ u

theorem omChar_root {P : List Str} {fm : FailMap} {om : OutMap} (hsound : SoundF P fm)
    (hounset : ∀ u, fm u = none → om u = patOutput P u) : OmChar P om [] := by
  rw [OmChar, hounset [] (soundF_root hsound)]
  refine ⟨patOutput_nodup P [], ?_⟩
  intro p
  rw [patOutput_mem, List.suffix_nil]
  constructor
  · rintro ⟨rfl, h⟩; exact ⟨h, rfl⟩
  · rintro ⟨h, rfl⟩; exact ⟨rfl, h⟩

theorem setFailState_fst (c tgt : Str) (st : FailMap × OutMap) :
    (setFailState c tgt st).1 = fun u => if u = c then some tgt else st.1 u := rfl

theorem setFailState_snd (c tgt : Str) (st : FailMap × OutMap) :
    (setFailState c tgt st).2 =
      fun u => if u = c then extendSet (st.2 u) (st.2 tgt) else st.2 u := rfl

theorem processChild_step {P : List Str} {w f c : Str} {fm : FailMap} {om : OutMap}
    (hwne : w ≠ []) (hf : f = idealFail P w)
    (hsound : SoundF P fm) (hbelow : SetBelow P fm w.length)
    (hounset : ∀ u, fm u = none → om u = patOutput P u)
    (hoset : ∀ u, (fm u).isSome = true → OmChar P om u)
    (hc : c ∈ childrenOf P w) (hcun : fm c = none) :
    processChild P f (fm, om) c = setFailState c (idealFail P c) (fm, om) ∧
      OmChar P (setFailState c (idealFail P c) (fm, om)).2 c := by
  obtain ⟨hcx, hcdrop, hcne⟩ := childrenOf_shape hc
  obtain ⟨hcnode, hclen, -⟩ := childrenOf_mem.mp hc
  subst hf
  have hflen : (idealFail P w).length ≤ w.length := Nat.le_of_lt (idealFail_length hwne)
  set x := c.getLastD 'A' with hx
  have hnext : nextState P fm ((idealFail P w).length + 1) (idealFail P w) x
      = lms P (idealFail P w ++ [x]) :=
    nextState_ideal hsound hbelow (idealFail P w).length (idealFail P w) le_rfl hflen
      (idealFail_node P w) ((idealFail P w).length + 1) le_rfl x
  have hcfail : idealFail P c = lns P (idealFail P w ++ [x]) := by
    calc idealFail P c = idealFail P (w ++ [x]) := by rw [← hcx]
      _ = lns P (idealFail P w ++ [x]) := idealFail_snoc hwne x
  have hmain : processChild P (idealFail P w) (fm, om) c
      = setFailState c (idealFail P c) (fm, om) := by
    show (match nextState P fm ((idealFail P w).length + 1) (idealFail P w) (c.getLastD 'A') with
      | some tgt => setFailState c tgt (fm, om)
      | none => setFailState c [] (fm, om)) = _
    rw [← hx, hnext]
    cases hl : lms P (idealFail P w ++ [x]) with
    | some v =>
      have hv : idealFail P c = v := by rw [hcfail]; simp [lns, hl]
      rw [hv]
    | none =>
      have hv : idealFail P c = [] := by rw [hcfail]; simp [lns, hl]
      rw [hv]
  refine ⟨hmain, ?_⟩
  have homc : om c = patOutput P c := hounset c hcun
  have hgnode : isNode P (idealFail P c) = true := idealFail_node P c
  have hg : OmChar P om (idealFail P c) := by
    rcases eq_or_ne (idealFail P c) [] with hroot | hne
    · rw [hroot]; exact omChar_root hsound hounset
    · have hlen2 : (idealFail P c).length ≤ w.length := by
        have := idealFail_length (P := P) hcne
        omega
      exact hoset _ (hbelow _ hgnode hne hlen2)
  have hval : (setFailState c (idealFail P c) (fm, om)).2 c
      = extendSet (om c) (om (idealFail P c)) := by
    rw [setFailState_snd]
    simp
  rw [OmChar, hval]
  constructor
  · refine extendSet_nodup ?_ hg.1
    rw [homc]
    exact patOutput_nodup P c
  · intro p
    rw [extendSet_mem, homc, patOutput_mem, hg.2]
    constructor
    · rintro (⟨rfl, hp⟩ | ⟨hp, hs⟩)
      · exact ⟨hp, List.suffix_refl _⟩
      · exact ⟨hp, hs.trans idealFail_suffix⟩
    · rintro ⟨hp, hs⟩
      rcases (suffix_split (node_of_memP hp)).mp hs with rfl | hs'
      · exact Or.inl ⟨rfl, hp⟩
      · exact Or.inr ⟨hp, hs'⟩

theorem processChildren_fold {P : List Str} {w f : Str} (hwne : w ≠ [])
    (hf : f = idealFail P w) :
    ∀ (cs : List Str) (fm : FailMap) (om : OutMap),
      SoundF P fm → SetBelow P fm w.length →
      (∀ u, fm u = none → om u = patOutput P u) →
      (∀ u, (fm u).isSome = true → OmChar P om u) →
      cs.Nodup →
      (∀ c ∈ cs, c ∈ childrenOf P w ∧ fm c = none) →
      ∃ fm' om', cs.foldl (processChild P f) (fm, om) = (fm', om') ∧
        (∀ u, u ∉ cs → fm' u = fm u ∧ om' u = om u) ∧
        (∀ c ∈ cs, fm' c = some (idealFail P c)) ∧
        SoundF P fm' ∧
        (∀ u, fm' u = none → om' u = patOutput P u) ∧
        (∀ u, (fm' u).isSome = true → OmChar P om' u) := by
  intro cs
  induction cs with
  | nil =>
    intro fm om h1 _ h3 h4 _ _
    exact ⟨fm, om, rfl, fun u _ => ⟨rfl, rfl⟩, by simp, h1, h3, h4⟩
  | cons c cs ih =>
    intro fm om h1 h2 h3 h4 hnodup hcs
    obtain ⟨hcmem, hcun⟩ := hcs c (by simp)
    obtain ⟨hcnode, hclen, -⟩ := childrenOf_mem.mp hcmem
    have hcne : c ≠ [] := (childrenOf_shape hcmem).2.2
    obtain ⟨hproc, homchar⟩ := processChild_step hwne hf h1 h2 h3 h4 hcmem hcun
    have hfold : (c :: cs).foldl (processChild P f) (fm, om)
        = cs.foldl (processChild P f) (setFailState c (idealFail P c) (fm, om)) := by
      rw [List.foldl_cons, hproc]
    set st₁ := setFailState c (idealFail P c) (fm, om) with hst₁
    have hfm₁ : ∀ u, st₁.1 u = if u = c then some (idealFail P c) else fm u :=
      fun u => by rw [hst₁, setFailState_fst]
    have hom₁ : ∀ u, u ≠ c → st₁.2 u = om u := by
      intro u hu
      rw [hst₁, setFailState_snd]
      simp [hu]
    have h1' : SoundF P st₁.1 := by
      intro u v hv
      rw [hfm₁ u] at hv
      by_cases hu : u = c
      · rw [if_pos hu] at hv
        obtain rfl : idealFail P c = v := by injection hv
        subst hu
        exact ⟨hcnode, hcne, rfl⟩
      · rw [if_neg hu] at hv
        exact h1 u v hv
    have h2' : SetBelow P st₁.1 w.length := by
      intro u hun hune hul
      have hu : u ≠ c := by
        intro h
        rw [h] at hul
        omega
      rw [hfm₁ u, if_neg hu]
      exact h2 u hun hune hul
    have h3' : ∀ u, st₁.1 u = none → st₁.2 u = patOutput P u := by
      intro u hv
      rw [hfm₁ u] at hv
      by_cases hu : u = c
      · rw [if_pos hu] at hv; exact absurd hv (by simp)
      · rw [if_neg hu] at hv
        rw [hom₁ u hu]
        exact h3 u hv
    have h4' : ∀ u, (st₁.1 u).isSome = true → OmChar P st₁.2 u := by
      intro u hv
      by_cases hu : u = c
      · subst hu; exact homchar
      · rw [hfm₁ u, if_neg hu] at hv
        have := h4 u hv
        rw [OmChar, hom₁ u hu]
        exact this
    have hcs' : ∀ c' ∈ cs, c' ∈ childrenOf P w ∧ st₁.1 c' = none := by
      intro c' hc'
      have hne : c' ≠ c := by
        rintro rfl
        exact (List.nodup_cons.mp hnodup).1 hc'
      rw [hfm₁ c', if_neg hne]
      exact hcs c' (by simp [hc'])
    obtain ⟨fm', om', hrun, hkeep, hnew, hs', ho3', ho4'⟩ :=
      ih st₁.1 st₁.2 h1' h2' h3' h4' (List.nodup_cons.mp hnodup).2 hcs'
    refine ⟨fm', om', ?_, ?_, ?_, hs', ho3', ho4'⟩
    · rw [hfold, ← hrun]
    · intro u hu
      have hu1 : u ∉ cs := fun h => hu (by simp [h])
      have hu2 : u ≠ c := fun h => hu (by simp [h])
      obtain ⟨e1, e2⟩ := hkeep u hu1
      exact ⟨by rw [e1, hfm₁ u, if_neg hu2], by rw [e2, hom₁ u hu2]⟩
    · intro c' hc'
      rcases List.mem_cons.mp hc' with rfl | hmem
      · have hc2 : c' ∉ cs := (List.nodup_cons.mp hnodup).1
        rw [(hkeep c' hc2).1, hfm₁ c', if_pos rfl]
      · exact hnew c' hmem

/-- The breadth-first queue invariant of `set_fail_states`: the queue holds
non-root states in non-decreasing depth spanning at most two levels, each at
most once and with its failure link already set; all set links are the ideal
ones; depth-1 states are seeded; a set state's parent was processed (its own
link set, no longer queued); a processed state's children are all set; output
sets are final for linked states and untouched otherwise. -/
structure BInv (P : List Str) (q : List Str) (fm : FailMap) (om : OutMap) : Prop where
  qnode : ∀ w ∈ q, isNode P w = true ∧ w ≠ []
  qsort : q.Pairwise (fun a b => a.length ≤ b.length)
  qspan : ∀ a ∈ q, ∀ b ∈ q, a.length ≤ b.length + 1
  qdup : q.Nodup
  qset : ∀ w ∈ q, (fm w).isSome = true
  fsound : SoundF P fm
  dep1 : ∀ x : Char, isNode P [x] = true → (fm [x]).isSome = true
  par : ∀ w, (fm w).isSome = true → 2 ≤ w.length →
    (fm w.dropLast).isSome = true ∧ w.dropLast ∉ q
  cfull : ∀ w, (fm w).isSome = true → w ∉ q → ∀ c ∈ childrenOf P w, (fm c).isSome = true
  ounset : ∀ u, fm u = none → om u = patOutput P u
  oset : ∀ u, (fm u).isSome = true → OmChar P om u

theorem BInv.allSetBelow {P : List Str} {q : List Str} {fm : FailMap} {om : OutMap}
    (hI : BInv P q fm om) :
    ∀ n w, w.length ≤ n → isNode P w = true → w ≠ [] →
      (∀ u ∈ q, w.length ≤ u.length) → (fm w).isSome = true := by
  intro n
  induction n with
  | zero =>
    intro w hlen _ hne _
    exact absurd (List.length_eq_zero.mp (Nat.le_zero.mp hlen)) hne
  | succ n ih =>
    intro w hlen hnode hne hq
    rcases Nat.lt_or_ge w.length 2 with hsmall | hbig
    · have h1 : w.length = 1 := by
        have h0 : w.length ≠ 0 := fun h => hne (List.length_eq_zero.mp h)
        omega
      obtain ⟨x, rfl⟩ := List.length_eq_one.mp h1
      exact hI.dep1 x hnode
    · have hpwlen : w.dropLast.length = w.length - 1 := List.length_dropLast w
      have hpwnode : isNode P w.dropLast = true :=
        isNode_of_prefix (List.dropLast_prefix w) hnode
      have hpwne : w.dropLast ≠ [] := by
        intro h
        rw [h] at hpwlen
        simp at hpwlen
        omega
      have hpwset : (fm w.dropLast).isSome = true := by
        apply ih w.dropLast (by omega) hpwnode hpwne
        intro u hu
        have := hq u hu
        omega
      have hpwq : w.dropLast ∉ q := by
        intro h
        have := hq _ h
        omega
      exact hI.cfull w.dropLast hpwset hpwq w (mem_childrenOf_dropLast hnode hne)

theorem binv_step {P : List Str} {w : Str} {rest : List Str} {fm : FailMap} {om : OutMap}
    (hI : BInv P (w :: rest) fm om) {f : Str} (hfm : fm w = some f) :
    ∃ fm' om',
      (childrenOf P w).foldl (processChild P f) (fm, om) = (fm', om') ∧
      BInv P (rest ++ childrenOf P w) fm' om' ∧
      (∀ u, u ∉ childrenOf P w → fm' u = fm u) ∧
      (∀ c ∈ childrenOf P w, (fm' c).isSome = true ∧ fm c = none) := by
  obtain ⟨hwnode, hwne⟩ := hI.qnode w (by simp)
  have hwpos : 1 ≤ w.length := by
    cases w with
    | nil => simp at hwne
    | cons a t => simp
  obtain ⟨-, -, hff⟩ := hI.fsound w f hfm
  have hrest_ge : ∀ u ∈ rest, w.length ≤ u.length := by
    have hp := hI.qsort
    rw [List.pairwise_cons] at hp
    exact fun u hu => hp.1 u hu
  have hbelow : SetBelow P fm w.length := by
    intro u hun hune hul
    refine hI.allSetBelow u.length u le_rfl hun hune ?_
    intro v hv
    rcases List.mem_cons.mp hv with rfl | hv'
    · exact hul
    · exact Nat.le_trans hul (hrest_ge v hv')
  have hchun : ∀ c ∈ childrenOf P w, fm c = none := by
    intro c hc
    obtain ⟨-, hclen, -⟩ := childrenOf_mem.mp hc
    cases hcf : fm c with
    | none => rfl
    | some v =>
      have hset : (fm c).isSome = true := by rw [hcf]; rfl
      obtain ⟨-, hpq⟩ := hI.par c hset (by omega)
      rw [(childrenOf_shape hc).2.1] at hpq
      exact absurd (List.mem_cons_self w rest) hpq
  obtain ⟨fm', om', hrun, hkeep, hnew, hs', ho3', ho4'⟩ :=
    processChildren_fold hwne hff (childrenOf P w) fm om hI.fsound hbelow hI.ounset hI.oset
      (childrenOf_nodup P w) (fun c hc => ⟨hc, hchun c hc⟩)
  have hmono : ∀ u, (fm u).isSome = true → (fm' u).isSome = true := by
    intro u hu
    by_cases hc : u ∈ childrenOf P w
    · rw [hchun u hc] at hu; simp at hu
    · rw [(hkeep u hc).1]; exact hu
  have hset' : ∀ c ∈ childrenOf P w, (fm' c).isSome = true := by
    intro c hc
    rw [hnew c hc]
    rfl
  have hcs_len : ∀ c ∈ childrenOf P w, c.length = w.length + 1 :=
    fun c hc => (childrenOf_mem.mp hc).2.1
  have hdisj : ∀ u ∈ rest, u ∉ childrenOf P w := by
    intro u hu hc
    have h1 := hI.qset u (List.mem_cons_of_mem w hu)
    rw [hchun u hc] at h1
    simp at h1
  have hwnotc : w ∉ childrenOf P w := by
    intro h
    have := hcs_len w h
    omega
  have hwnotrest : w ∉ rest := (List.nodup_cons.mp hI.qdup).1
  refine ⟨fm', om', hrun, ?_, fun u hu => (hkeep u hu).1,
    fun c hc => ⟨hset' c hc, hchun c hc⟩⟩
  refine ⟨?_, ?_, ?_, ?_, ?_, hs', ?_, ?_, ?_, ho3', ho4'⟩
  · -- qnode
    intro u hu
    rcases List.mem_append.mp hu with h | h
    · exact hI.qnode u (List.mem_cons_of_mem w h)
    · exact ⟨(childrenOf_mem.mp h).1, (childrenOf_shape h).2.2⟩
  · -- qsort
    rw [List.pairwise_append]
    refine ⟨(List.pairwise_cons.mp hI.qsort).2, ?_, ?_⟩
    · refine List.pairwise_of_forall_mem_list ?_
      intro a ha b hb
      rw [hcs_len a ha, hcs_len b hb]
    · intro a ha b hb
      have h1 := hI.qspan a (List.mem_cons_of_mem w ha) w (List.mem_cons_self w rest)
      rw [hcs_len b hb]
      omega
  · -- qspan
    intro a ha b hb
    rcases List.mem_append.mp ha with h1 | h1 <;> rcases List.mem_append.mp hb with h2 | h2
    · exact hI.qspan a (List.mem_cons_of_mem w h1) b (List.mem_cons_of_mem w h2)
    · have := hI.qspan a (List.mem_cons_of_mem w h1) w (List.mem_cons_self w rest)
      rw [hcs_len b h2]
      omega
    · have := hrest_ge b h2
      rw [hcs_len a h1]
      omega
    · rw [hcs_len a h1, hcs_len b h2]
      omega
  · -- qdup
    refine List.Nodup.append (List.nodup_cons.mp hI.qdup).2 (childrenOf_nodup P w) ?_
    intro u hu
    exact hdisj u hu
  · -- qset
    intro u hu
    rcases List.mem_append.mp hu with h | h
    · exact hmono u (hI.qset u (List.mem_cons_of_mem w h))
    · exact hset' u h
  · -- dep1
    intro x hx
    exact hmono [x] (hI.dep1 x hx)
  · -- par
    intro u hu hlen2
    by_cases hc : u ∈ childrenOf P w
    · have hdrop : u.dropLast = w := (childrenOf_shape hc).2.1
      rw [hdrop]
      constructor
      · rw [(hkeep w hwnotc).1, hfm]
        rfl
      · intro h
        rcases List.mem_append.mp h with h' | h'
        · exact hwnotrest h'
        · exact hwnotc h'
    · rw [(hkeep u hc).1] at hu
      obtain ⟨h1, h2⟩ := hI.par u hu hlen2
      constructor
      · exact hmono _ h1
      · intro h
        rcases List.mem_append.mp h with h' | h'
        · exact h2 (List.mem_cons_of_mem w h')
        · rw [hchun _ h'] at h1
          simp at h1
  · -- cfull
    intro u hu hq c hc
    by_cases huw : u = w
    · subst huw
      exact hset' c hc
    · have hucs : u ∉ childrenOf P w := fun h => hq (List.mem_append.mpr (Or.inr h))
      rw [(hkeep u hucs).1] at hu
      have hurest : u ∉ w :: rest := by
        intro h
        rcases List.mem_cons.mp h with rfl | h'
        · exact huw rfl
        · exact hq (List.mem_append.mpr (Or.inl h'))
      have := hI.cfull u hu hurest c hc
      exact hmono c this

theorem bfs_run {P : List Str} :
    ∀ (fuel : Nat) (q : List Str) (fm : FailMap) (om : OutMap), BInv P q fm om →
      q.length + unsetCount P fm < fuel →
      ∃ fm' om', setFailStatesGo P fuel q (fm, om) = some (fm', om') ∧
        BInv P [] fm' om' := by
  intro fuel
  induction fuel with
  | zero => intro q fm om _ h; omega
  | succ fuel ih =>
    intro q fm om hI hq
    cases q with
    | nil => exact ⟨fm, om, rfl, hI⟩
    | cons w rest =>
      obtain ⟨f, hfm⟩ := Option.isSome_iff_exists.mp (hI.qset w (List.mem_cons_self w rest))
      obtain ⟨fm', om', hrun, hI', hkeep, hnew⟩ := binv_step hI hfm
      have hunfold : setFailStatesGo P (fuel + 1) (w :: rest) (fm, om)
          = setFailStatesGo P fuel (rest ++ childrenOf P w) (fm', om') := by
        rw [setFailStatesGo]
        rw [show (fm, om).1 w = some f from hfm]
        show setFailStatesGo P fuel (rest ++ childrenOf P w)
            (List.foldl (processChild P f) (fm, om) (childrenOf P w)) = _
        rw [hrun]
      have hdec : unsetCount P fm' + (childrenOf P w).length = unsetCount P fm := by
        apply unsetCount_dec (childrenOf_nodup P w)
        · intro c hc
          obtain ⟨hn, -, -⟩ := childrenOf_mem.mp hc
          have hne := (childrenOf_shape hc).2.2
          refine ⟨?_, hne, (hnew c hc).2⟩
          rcases isNode_iff.mp hn with rfl | ⟨p, hp, hcp⟩
          · exact absurd rfl hne
          · exact mem_nodesList.mpr ⟨p, hp, hcp⟩
        · exact hkeep
        · exact fun c hc => (hnew c hc).1
      rw [hunfold]
      apply ih _ _ _ hI'
      simp only [List.length_cons] at hq
      rw [List.length_append]
      omega

theorem seedFold_spec (P : List Str) :
    ∀ (cs : List Str) (fm : FailMap) (om : OutMap),
      cs.Nodup →
      (∀ c ∈ cs, c.length = 1 ∧ isNode P c = true ∧ fm c = none ∧ om c = patOutput P c) →
      om [] = patOutput P [] →
      ∃ fm' om', cs.foldl (fun st c => setFailState c [] st) (fm, om) = (fm', om') ∧
        (∀ u, u ∉ cs → fm' u = fm u ∧ om' u = om u) ∧
        (∀ c ∈ cs, fm' c = some [] ∧ (om' c).Nodup ∧
          ∀ p, p ∈ om' c ↔ p ∈ P ∧ p <:+ c) := by
  intro cs
  induction cs with
  | nil =>
    intro fm om _ _ _
    exact ⟨fm, om, rfl, fun u _ => ⟨rfl, rfl⟩, by simp⟩
  | cons c cs ih =>
    intro fm om hnodup hcs hroot
    obtain ⟨hclen, hcnode, hcun, hcout⟩ := hcs c (by simp)
    have hcne : c ≠ [] := by
      intro h
      rw [h] at hclen
      simp at hclen
    set st₁ := setFailState c [] (fm, om) with hst₁
    have hfm₁ : ∀ u, st₁.1 u = if u = c then some [] else fm u := fun u => by
      rw [hst₁, setFailState_fst]
    have hom₁c : st₁.2 c = extendSet (om c) (om []) := by
      rw [hst₁, setFailState_snd]
      simp
    have hom₁ : ∀ u, u ≠ c → st₁.2 u = om u := by
      intro u hu
      rw [hst₁, setFailState_snd]
      simp [hu]
    have hroot₁ : st₁.2 [] = patOutput P [] := by
      rw [hom₁ [] (fun h => hcne h.symm)]
      exact hroot
    have hcs' : ∀ c' ∈ cs, c'.length = 1 ∧ isNode P c' = true ∧ st₁.1 c' = none ∧
        st₁.2 c' = patOutput P c' := by
      intro c' hc'
      have hne : c' ≠ c := by
        rintro rfl
        exact (List.nodup_cons.mp hnodup).1 hc'
      obtain ⟨h1, h2, h3, h4⟩ := hcs c' (by simp [hc'])
      refine ⟨h1, h2, ?_, ?_⟩
      · rw [hfm₁, if_neg hne]; exact h3
      · rw [hom₁ c' hne]; exact h4
    obtain ⟨fm', om', hrun, hkeep, hnew⟩ :=
      ih st₁.1 st₁.2 (List.nodup_cons.mp hnodup).2 hcs' hroot₁
    refine ⟨fm', om', ?_, ?_, ?_⟩
    · rw [List.foldl_cons, ← hrun]
    · intro u hu
      have hu1 : u ∉ cs := fun h => hu (by simp [h])
      have hu2 : u ≠ c := fun h => hu (by simp [h])
      obtain ⟨e1, e2⟩ := hkeep u hu1
      exact ⟨by rw [e1, hfm₁, if_neg hu2], by rw [e2, hom₁ u hu2]⟩
    · intro c' hc'
      rcases List.mem_cons.mp hc' with rfl | hmem
      · have hc2 : c' ∉ cs := (List.nodup_cons.mp hnodup).1
        obtain ⟨e1, e2⟩ := hkeep c' hc2
        refine ⟨by rw [e1, hfm₁, if_pos rfl], ?_, ?_⟩
        · rw [e2, hom₁c, hcout, hroot]
          exact extendSet_nodup (patOutput_nodup P c') (patOutput_nodup P [])
        · intro p
          rw [e2, hom₁c, hcout, hroot, extendSet_mem, patOutput_mem, patOutput_mem]
          have hif : idealFail P c' = [] := by
            obtain ⟨x, rfl⟩ := List.length_eq_one.mp hclen
            rfl
          constructor
          · rintro (⟨rfl, hp⟩ | ⟨rfl, hp⟩)
            · exact ⟨hp, List.suffix_refl _⟩
            · exact ⟨hp, List.nil_suffix⟩
          · rintro ⟨hp, hs⟩
            rcases (suffix_split (node_of_memP hp)).mp hs with rfl | hs'
            · exact Or.inl ⟨rfl, hp⟩
            · rw [hif] at hs'
              have hp0 : p = [] := List.suffix_nil.mp hs'
              exact Or.inr ⟨hp0, hp0 ▸ hp⟩
      · exact hnew c' hmem

theorem seed_binv (P : List Str) :
    ∃ fm om, seedState P = (fm, om) ∧ BInv P (childrenOf P []) fm om ∧
      (childrenOf P []).length + unsetCount P fm < buildFuel P := by
  have hmem : ∀ c ∈ childrenOf P [], c.length = 1 ∧ isNode P c = true ∧
      (fun _ => (none : Option Str)) c = none ∧ patOutput P c = patOutput P c := by
    intro c hc
    obtain ⟨hn, hl, -⟩ := childrenOf_mem.mp hc
    exact ⟨by simpa using hl, hn, rfl, rfl⟩
  obtain ⟨fm, om, hrun, hkeep, hnew⟩ := seedFold_spec P (childrenOf P [])
    (fun _ => none) (patOutput P) (childrenOf_nodup P []) hmem rfl
  have hsetiff : ∀ u, (fm u).isSome = true → u ∈ childrenOf P [] := by
    intro u hu
    by_contra h
    rw [(hkeep u h).1] at hu
    simp at hu
  have hlen1 : ∀ c ∈ childrenOf P [], c.length = 1 := by
    intro c hc
    simpa using (childrenOf_mem.mp hc).2.1
  refine ⟨fm, om, ?_, ?_, ?_⟩
  · rw [seedState, ← hrun]
  · refine ⟨?_, ?_, ?_, childrenOf_nodup P [], ?_, ?_, ?_, ?_, ?_, ?_, ?_⟩
    · intro u hu
      exact ⟨(childrenOf_mem.mp hu).1, (childrenOf_shape hu).2.2⟩
    · refine List.pairwise_of_forall_mem_list ?_
      intro a ha b hb
      rw [hlen1 a ha, hlen1 b hb]
    · intro a ha b hb
      rw [hlen1 a ha]
      omega
    · intro u hu
      rw [(hnew u hu).1]
      rfl
    · -- fsound
      intro u v hv
      have hu : u ∈ childrenOf P [] := hsetiff u (by rw [hv]; rfl)
      obtain rfl : v = [] := by
        have h2 := (hnew u hu).1
        rw [hv] at h2
        exact Option.some.inj h2
      refine ⟨(childrenOf_mem.mp hu).1, (childrenOf_shape hu).2.2, ?_⟩
      obtain ⟨x, rfl⟩ := List.length_eq_one.mp (hlen1 u hu)
      rfl
    · -- dep1
      intro x hx
      have hmem2 : [x] ∈ childrenOf P [] :=
        childrenOf_mem.mpr ⟨hx, by simp, List.nil_prefix⟩
      rw [(hnew [x] hmem2).1]
      rfl
    · -- par
      intro u hu hlen2
      have := hlen1 u (hsetiff u hu)
      omega
    · -- cfull
      intro u hu hq
      exact absurd (hsetiff u hu) hq
    · -- ounset
      intro u hu
      have hnot : u ∉ childrenOf P [] := by
        intro h
        rw [(hnew u h).1] at hu
        simp at hu
      exact (hkeep u hnot).2
    · -- oset
      intro u hu
      have h := hnew u (hsetiff u hu)
      exact ⟨h.2.1, h.2.2⟩
  · have h1 := unsetCount_le P fm
    have h2 := childrenOf_root_length_le P
    rw [buildFuel]
    omega

/-- The automaton built by `PatternFinder::new`: failure links are exactly
the ideal ones on non-root nodes, and every state's output set is exactly
the patterns that are suffixes of its defining prefix. -/
structure Built (P : List Str) (fm : FailMap) (om : OutMap) : Prop where
  sound : SoundF P fm
  complete : ∀ w, isNode P w = true → w ≠ [] → (fm w).isSome = true
  ochar : ∀ w, isNode P w = true → OmChar P om w

theorem new_built (P : List Str) :
    ∃ pf : PatternFinder, PatternFinder.new P = some pf ∧ pf.pats = P ∧
      Built P pf.fail pf.out := by
  obtain ⟨fm, om, hseed, hI, hlt⟩ := seed_binv P
  obtain ⟨fm', om', hrun, hI'⟩ := bfs_run (buildFuel P) (childrenOf P []) fm om hI hlt
  refine ⟨⟨P, fm', om'⟩, ?_, rfl, ?_⟩
  · rw [PatternFinder.new, hseed, hrun]
  · refine ⟨hI'.fsound, ?_, ?_⟩
    · intro w hn hne
      exact hI'.allSetBelow w.length w le_rfl hn hne (by simp)
    · intro w hn
      rcases eq_or_ne w [] with rfl | hne
      · exact omChar_root hI'.fsound hI'.ounset
      · exact hI'.oset w (hI'.allSetBelow w.length w le_rfl hn hne (by simp))

/-! ### The result map: `entry().or_default().push()` -/

theorem alookup_cons (a : Str) (l : List Nat) (r : MatchRes) (p : Str) :
    alookup ((a, l) :: r) p = if a = p then some l else alookup r p := rfl

theorem pushMatch_cons (a : Str) (l : List Nat) (r : MatchRes) (q : Str) (o : Nat) :
    pushMatch ((a, l) :: r) q o =
      if a = q then (a, l ++ [o]) :: r else (a, l) :: pushMatch r q o := rfl

theorem alookup_pushMatch (res : MatchRes) (q p : Str) (o : Nat) :
    alookup (pushMatch res q o) p =
      if p = q then some ((alookup res p).getD [] ++ [o]) else alookup res p := by
  induction res with
  | nil =>
    show (if q = p then some [o] else none) = _
    by_cases h : p = q
    · rw [if_pos (h.symm), if_pos h]
      subst h
      simp [alookup]
    · rw [if_neg (fun hh => h hh.symm), if_neg h]
      rfl
  | cons e rest ih =>
    obtain ⟨a, l⟩ := e
    rw [pushMatch_cons]
    by_cases h1 : a = q
    · subst h1
      by_cases h2 : a = p
      · subst h2
        rw [if_pos rfl, alookup_cons, if_pos rfl, if_pos rfl, alookup_cons, if_pos rfl]
        simp
      · have h3 : ¬ p = a := fun hh => h2 hh.symm
        rw [if_pos rfl, alookup_cons, if_neg h2, if_neg h3, alookup_cons, if_neg h2]
    · rw [if_neg h1, alookup_cons]
      by_cases h2 : a = p
      · subst h2
        have h3 : ¬ a = q := h1
        have h4 : ¬ (a : Str) = q := h1
        rw [if_pos rfl, if_neg (fun hh : a = q => h1 hh), alookup_cons, if_pos rfl]
      · rw [if_neg h2, ih, alookup_cons, if_neg h2]

theorem mem_keys_pushMatch {res : MatchRes} {q a : Str} {o : Nat} :
    a ∈ (pushMatch res q o).map Prod.fst ↔ a ∈ res.map Prod.fst ∨ a = q := by
  induction res with
  | nil => simp [pushMatch]
  | cons e rest ih =>
    obtain ⟨b, l⟩ := e
    rw [pushMatch_cons]
    by_cases h1 : b = q
    · subst h1
      rw [if_pos rfl]
      simp only [List.map_cons, List.mem_cons]
      tauto
    · rw [if_neg h1]
      simp only [List.map_cons, List.mem_cons, ih]
      tauto

theorem pushMatch_nodupKeys {res : MatchRes} (h : (res.map Prod.fst).Nodup)
    (q : Str) (o : Nat) : ((pushMatch res q o).map Prod.fst).Nodup := by
  induction res with
  | nil => simp [pushMatch]
  | cons e rest ih =>
    obtain ⟨b, l⟩ := e
    rw [List.map_cons, List.nodup_cons] at h
    rw [pushMatch_cons]
    by_cases h1 : b = q
    · rw [if_pos h1, List.map_cons, List.nodup_cons]
      exact h
    · rw [if_neg h1, List.map_cons, List.nodup_cons]
      refine ⟨?_, ih h.2⟩
      rw [mem_keys_pushMatch]
      rintro (hm | rfl)
      · exact h.1 hm
      · exact h1 rfl

theorem pushAll_some {ps : List Str} :
    ∀ {i : Nat} (res : MatchRes), ps.Nodup → (∀ p ∈ ps, byteLen p ≤ 1 + i) →
    ∃ res', pushAll ps i res = some res' ∧
      (∀ p, alookup res' p =
        if p ∈ ps then some ((alookup res p).getD [] ++ [1 + i - byteLen p])
        else alookup res p) ∧
      ((res.map Prod.fst).Nodup → (res'.map Prod.fst).Nodup) := by
  induction ps with
  | nil =>
    intro i res _ _
    exact ⟨res, rfl, by simp, id⟩
  | cons p ps ih =>
    intro i res hnodup hok
    have hp : byteLen p ≤ 1 + i := hok p (by simp)
    have hstep : pushAll (p :: ps) i res = pushAll ps i (pushMatch res p (1 + i - byteLen p)) := by
      rw [pushAll, List.foldlM_cons, if_neg (by omega)]
      rfl
    obtain ⟨res', hrun, hlook, hnd⟩ := ih (pushMatch res p (1 + i - byteLen p))
      (List.nodup_cons.mp hnodup).2 (fun q hq => hok q (by simp [hq]))
    refine ⟨res', by rw [hstep, pushAll] at *; exact hrun, ?_, ?_⟩
    · intro q
      rw [hlook q, alookup_pushMatch]
      by_cases hq1 : q ∈ ps
      · have hq2 : q ≠ p := by
          rintro rfl
          exact (List.nodup_cons.mp hnodup).1 hq1
        simp [hq1, hq2]
      · by_cases hq2 : q = p
        · subst hq2
          simp [hq1]
        · simp [hq1, hq2]
    · intro h
      exact hnd (pushMatch_nodupKeys h p _)

theorem pushAll_none {ps : List Str} :
    ∀ {i : Nat} (res : MatchRes), (∃ p ∈ ps, 1 + i < byteLen p) →
      pushAll ps i res = none := by
  induction ps with
  | nil => rintro i res ⟨p, hp, -⟩; simp at hp
  | cons p ps ih =>
    rintro i res ⟨q, hq, hqlen⟩
    rcases List.mem_cons.mp hq with rfl | hq'
    · rw [pushAll, List.foldlM_cons, if_pos (by omega)]
      rfl
    · by_cases hp : 1 + i < byteLen p
      · rw [pushAll, List.foldlM_cons, if_pos hp]
        rfl
      · rw [pushAll, List.foldlM_cons, if_neg hp]
        exact ih _ ⟨q, hq', hqlen⟩

/-! ### Byte-offset and position bookkeeping -/

theorem byteLen_append (a b : Str) : byteLen (a ++ b) = byteLen a + byteLen b := by
  simp [byteLen]

theorem utf8Len_pos (c : Char) : 1 ≤ utf8Len c := by
  rw [utf8Len]
  repeat' split
  all_goals omega

theorem byteIdx_of_prefix {T t₀ : List Char} {rest : List Char} (h : T = t₀ ++ rest) :
    byteIdx T t₀.length = byteLen t₀ := by
  rw [byteIdx, h, List.take_left]

theorem take_append_cons (t₀ : List Char) (c : Char) (rest : List Char) :
    (t₀ ++ c :: rest).take (t₀.length + 1) = t₀ ++ [c] := by
  rw [List.take_append_eq_append_take]
  have h1 : t₀.take (t₀.length + 1) = t₀ := List.take_of_length_le (by omega)
  rw [h1]
  congr 1
  simp

theorem optList_getD (l : List Nat) : (optList l).getD [] = l := by
  rw [optList]
  split <;> simp_all

theorem matchedAt_iff {P : List Str} {t : List Char} {k : Nat} {p : Str} :
    matchedAt P t k p = true ↔
      p ∈ P ∧ p <:+ t.take (k + 1) ∧ (lms P (t.take (k + 1))).isSome = true := by
  rw [matchedAt]
  simp [List.isSuffixOf_iff_suffix, and_assoc]

/-- The matcher's recorded offsets for the first `n` text positions. -/
def matchOffsetsUpTo (P : List Str) (t : List Char) (n : Nat) (p : Str) : List Nat :=
  (List.range n).filterMap
    (fun k => if matchedAt P t k p then some (1 + byteIdx t k - byteLen p) else none)

theorem matchOffsetsUpTo_succ (P : List Str) (t : List Char) (n : Nat) (p : Str) :
    matchOffsetsUpTo P t (n + 1) p = matchOffsetsUpTo P t n p ++
      (if matchedAt P t n p then [1 + byteIdx t n - byteLen p] else []) := by
  rw [matchOffsetsUpTo, List.range_succ, List.filterMap_append, matchOffsetsUpTo]
  congr 1
  split <;> simp_all

theorem matchOffsets_eq_upTo (P : List Str) (t : List Char) (p : Str) :
    matchOffsets P t p = matchOffsetsUpTo P t t.length p := rfl

/-! ### The matcher walks to the longest node suffix and records exactly the
pattern suffixes -/

theorem nextState_matcher {P : List Str} {fm : FailMap} {om : OutMap} (hB : Built P fm om)
    (t₀ : List Char) (c : Char) :
    nextState P fm ((lns P t₀).length + 1) (lns P t₀) c = lms P (t₀ ++ [c]) := by
  have hbelow : SetBelow P fm (lns P t₀).length := fun u hn hne _ => hB.complete u hn hne
  rw [nextState_ideal hB.sound hbelow (lns P t₀).length (lns P t₀) le_rfl le_rfl
    (lns_node P t₀) _ le_rfl c]
  exact (lms_snoc_lns P t₀ c).symm

theorem om_mem_matchedAt {P : List Str} {fm : FailMap} {om : OutMap} (hB : Built P fm om)
    {T t₀ : List Char} {c : Char} {rest : List Char} (hT : T = t₀ ++ c :: rest)
    {v : Str} (hv : lms P (t₀ ++ [c]) = some v) :
    ∀ p, p ∈ om v ↔ matchedAt P T t₀.length p = true := by
  obtain ⟨hsuf, hne, hnode, hmax⟩ := lms_spec hv
  have htake : T.take (t₀.length + 1) = t₀ ++ [c] := by
    rw [hT]; exact take_append_cons t₀ c rest
  intro p
  rw [(hB.ochar v hnode).2 p, matchedAt_iff, htake, hv]
  constructor
  · rintro ⟨hp, hs⟩
    exact ⟨hp, hs.trans hsuf, rfl⟩
  · rintro ⟨hp, hs, -⟩
    refine ⟨hp, ?_⟩
    rcases eq_or_ne p [] with rfl | hpne
    · exact List.nil_suffix
    · exact suffix_compar hs hsuf (hmax p hs hpne (node_of_memP hp))

/-- A position at which the byte-offset expression `1 + i - pattern.len()`
underflows. -/
def underAt (P : List Str) (T : List Char) (k : Nat) : Prop :=
  ∃ p, matchedAt P T k p = true ∧ 1 + byteIdx T k < byteLen p

theorem findGo_main {P : List Str} {fm : FailMap} {om : OutMap} (hB : Built P fm om)
    (T : List Char) :
    ∀ (rest t₀ : List Char) (res : MatchRes),
      T = t₀ ++ rest →
      (∀ p, alookup res p = optList (matchOffsetsUpTo P T t₀.length p)) →
      (res.map Prod.fst).Nodup →
      ((¬ ∃ k, t₀.length ≤ k ∧ k < T.length ∧ underAt P T k) →
        ∃ res', findPatternsGo P fm om rest (lns P t₀) (byteLen t₀) res = some res' ∧
          (∀ p, alookup res' p = optList (matchOffsets P T p)) ∧
          (res'.map Prod.fst).Nodup) ∧
      ((∃ k, t₀.length ≤ k ∧ k < T.length ∧ underAt P T k) →
        findPatternsGo P fm om rest (lns P t₀) (byteLen t₀) res = none) := by
  intro rest
  induction rest with
  | nil =>
    intro t₀ res hT hres hnd
    have hTl : T.length = t₀.length := by rw [hT]; simp
    constructor
    · intro _
      refine ⟨res, rfl, ?_, hnd⟩
      intro p
      rw [matchOffsets_eq_upTo, hTl]
      exact hres p
    · rintro ⟨k, h1, h2, -⟩
      omega
  | cons c rest ih =>
    intro t₀ res hT hres hnd
    have hklt : t₀.length < T.length := by
      rw [hT, List.length_append, List.length_cons]
      omega
    have htake : T.take (t₀.length + 1) = t₀ ++ [c] := by
      rw [hT]; exact take_append_cons t₀ c rest
    have hbyte : byteIdx T t₀.length = byteLen t₀ := byteIdx_of_prefix hT
    have hnext := nextState_matcher hB t₀ c
    have hT' : T = (t₀ ++ [c]) ++ rest := by rw [hT]; simp
    have hlen' : (t₀ ++ [c]).length = t₀.length + 1 := by simp
    have hblen : byteLen (t₀ ++ [c]) = byteLen t₀ + utf8Len c := by
      rw [byteLen_append]
      simp [byteLen]
    cases hv : lms P (t₀ ++ [c]) with
    | none =>
      have hstep : findPatternsGo P fm om (c :: rest) (lns P t₀) (byteLen t₀) res
          = findPatternsGo P fm om rest [] (byteLen t₀ + utf8Len c) res := by
        rw [findPatternsGo, hnext, hv]
      have hnomatch : ∀ p, matchedAt P T t₀.length p = false := by
        intro p
        refine Bool.eq_false_iff.mpr ?_
        intro h
        rw [matchedAt_iff, htake, hv] at h
        obtain ⟨-, -, h⟩ := h
        simp at h
      have hres' : ∀ p, alookup res p =
          optList (matchOffsetsUpTo P T (t₀ ++ [c]).length p) := by
        intro p
        rw [hlen', matchOffsetsUpTo_succ, hnomatch p]
        simp only [Bool.false_eq_true, if_false, List.append_nil]
        exact hres p
      have hstate : lns P (t₀ ++ [c]) = [] := by rw [lns, hv]; rfl
      obtain ⟨ihpos, ihneg⟩ := ih (t₀ ++ [c]) res hT' hres' hnd
      rw [hstate, hblen] at ihpos ihneg
      constructor
      · intro hno
        have hno' : ¬ ∃ k, (t₀ ++ [c]).length ≤ k ∧ k < T.length ∧ underAt P T k := by
          rintro ⟨k, a, b, u⟩
          rw [hlen'] at a
          exact hno ⟨k, by omega, b, u⟩
        obtain ⟨res', hr, hl, hn⟩ := ihpos hno'
        exact ⟨res', by rw [hstep]; exact hr, hl, hn⟩
      · rintro ⟨k, hk1, hk2, hu⟩
        have hk3 : t₀.length + 1 ≤ k := by
          rcases Nat.eq_or_lt_of_le hk1 with rfl | h
          · obtain ⟨p, hp, -⟩ := hu
            rw [hnomatch p] at hp
            exact absurd hp (by simp)
          · omega
        rw [hstep]
        exact ihneg ⟨k, by rw [hlen']; omega, hk2, hu⟩
    | some v =>
      have hmem := om_mem_matchedAt hB hT hv
      have hvnodup : (om v).Nodup := (hB.ochar v (lms_spec hv).2.2.1).1
      by_cases hund : ∃ p ∈ om v, 1 + byteLen t₀ < byteLen p
      · have hpush : pushAll (om v) (byteLen t₀) res = none := pushAll_none res hund
        have hstep : findPatternsGo P fm om (c :: rest) (lns P t₀) (byteLen t₀) res
            = none := by
          rw [findPatternsGo, hnext, hv]
          show (match pushAll (om v) (byteLen t₀) res with
            | some res' => findPatternsGo P fm om rest v (byteLen t₀ + utf8Len c) res'
            | none => none) = none
          rw [hpush]
        obtain ⟨p, hp1, hp2⟩ := hund
        have hEx : ∃ k, t₀.length ≤ k ∧ k < T.length ∧ underAt P T k :=
          ⟨t₀.length, le_rfl, hklt, p, (hmem p).mp hp1, by rw [hbyte]; exact hp2⟩
        exact ⟨fun hno => absurd hEx hno, fun _ => hstep⟩
      · have hok : ∀ p ∈ om v, byteLen p ≤ 1 + byteLen t₀ := by
          intro p hp
          by_contra h
          exact hund ⟨p, hp, by omega⟩
        obtain ⟨res₁, hpush, hlook, hnod⟩ := pushAll_some res hvnodup hok
        have hstep : findPatternsGo P fm om (c :: rest) (lns P t₀) (byteLen t₀) res
            = findPatternsGo P fm om rest v (byteLen t₀ + utf8Len c) res₁ := by
          rw [findPatternsGo, hnext, hv]
          show (match pushAll (om v) (byteLen t₀) res with
            | some res' => findPatternsGo P fm om rest v (byteLen t₀ + utf8Len c) res'
            | none => none) = _
          rw [hpush]
        have hstate : lns P (t₀ ++ [c]) = v := by rw [lns, hv]; rfl
        have hres₁ : ∀ p, alookup res₁ p =
            optList (matchOffsetsUpTo P T (t₀ ++ [c]).length p) := by
          intro p
          rw [hlen', hlook p, matchOffsetsUpTo_succ]
          by_cases hmp : matchedAt P T t₀.length p = true
          · rw [if_pos ((hmem p).mpr hmp), if_pos hmp, hres p, optList_getD, hbyte]
            rw [optList, if_neg (by simp)]
          · rw [if_neg (fun h => hmp ((hmem p).mp h))]
            rw [if_neg hmp, List.append_nil]
            exact hres p
        obtain ⟨ihpos, ihneg⟩ := ih (t₀ ++ [c]) res₁ hT' hres₁ (hnod hnd)
        rw [hstate, hblen] at ihpos ihneg
        constructor
        · intro hno
          have hno' : ¬ ∃ k, (t₀ ++ [c]).length ≤ k ∧ k < T.length ∧ underAt P T k := by
            rintro ⟨k, a, b, u⟩
            rw [hlen'] at a
            exact hno ⟨k, by omega, b, u⟩
          obtain ⟨res', hr, hl, hn⟩ := ihpos hno'
          exact ⟨res', by rw [hstep]; exact hr, hl, hn⟩
        · rintro ⟨k, hk1, hk2, hu⟩
          have hk3 : t₀.length + 1 ≤ k := by
            rcases Nat.eq_or_lt_of_le hk1 with rfl | h
            · obtain ⟨p, hp, hplen⟩ := hu
              rw [hbyte] at hplen
              have := hok p ((hmem p).mpr hp)
              omega
            · omega
          rw [hstep]
          exact ihneg ⟨k, by rw [hlen']; omega, hk2, hu⟩

/-- The central characterization of `find_patterns`: the call panics (on
`usize` underflow) exactly when `hasUnderflow` holds, and otherwise the
returned map has duplicate-free keys and sends every pattern `p` to exactly
`matchOffsets P T p` (keyless when that list is empty). -/
theorem findPatterns_spec (P : List Str) (T : List Char) :
    (findPatternsO P T = none ↔ hasUnderflow P T) ∧
    (∀ R, findPatternsO P T = some R →
      (∀ p, alookup R p = optList (matchOffsets P T p)) ∧ (R.map Prod.fst).Nodup) := by
  obtain ⟨pf, hnew, hpats, hB⟩ := new_built P
  have hunfold : findPatternsO P T = findPatternsGo P pf.fail pf.out T [] 0 [] := by
    rw [findPatternsO, hnew]
    show pf.findPatterns T = _
    rw [PatternFinder.findPatterns, hpats]
  have hres0 : ∀ p, alookup ([] : MatchRes) p = optList (matchOffsetsUpTo P T 0 p) := by
    intro p
    show (none : Option (List Nat)) = _
    rw [matchOffsetsUpTo]
    simp [optList]
  obtain ⟨hpos, hneg⟩ := findGo_main hB T T [] [] rfl hres0 (by simp)
  rw [show lns P ([] : List Char) = [] from rfl, show byteLen [] = 0 from rfl] at hpos hneg
  constructor
  · constructor
    · intro hnone
      by_contra hu
      have hno : ¬ ∃ k, List.length ([] : List Char) ≤ k ∧ k < T.length ∧ underAt P T k := by
        rintro ⟨k, -, b, u⟩
        exact hu ⟨k, b, u⟩
      obtain ⟨res', hr, -, -⟩ := hpos hno
      rw [hunfold, hr] at hnone
      exact absurd hnone (by simp)
    · rintro ⟨k, hk, hka⟩
      rw [hunfold]
      exact hneg ⟨k, Nat.zero_le k, hk, hka⟩
  · intro R hR
    have hno : ¬ ∃ k, List.length ([] : List Char) ≤ k ∧ k < T.length ∧ underAt P T k := by
      intro hex
      rw [hunfold, hneg hex] at hR
      exact absurd hR (by simp)
    obtain ⟨res', hr, hl, hn⟩ := hpos hno
    rw [hunfold, hr] at hR
    obtain rfl : res' = R := Option.some.inj hR
    exact ⟨hl, hn⟩

/-! ### Offsets, occurrences, and sortedness -/

theorem matchEnd_to_occurs {p : Str} {T : List Char} {k : Nat}
    (h : p <:+ T.take (k + 1)) :
    ∃ s, p <+: T.drop s ∧ s + p.length = (T.take (k + 1)).length := by
  obtain ⟨u, hu⟩ := h
  have hule : u.length ≤ (T.take (k + 1)).length := by
    rw [← hu, List.length_append]
    omega
  refine ⟨u.length, ?_, by rw [← hu, List.length_append]⟩
  have h1 : T = T.take (k + 1) ++ T.drop (k + 1) := (List.take_append_drop _ T).symm
  have h2 : T.drop u.length = p ++ T.drop (k + 1) := by
    calc T.drop u.length = (T.take (k + 1) ++ T.drop (k + 1)).drop u.length := by rw [← h1]
      _ = (T.take (k + 1)).drop u.length ++ T.drop (k + 1) :=
        List.drop_append_of_le_length hule
      _ = p ++ T.drop (k + 1) := by
        rw [← hu, List.drop_left]
  rw [h2]
  exact List.prefix_append p _

theorem occurs_to_matchEnd {p : Str} {T : List Char} {s : Nat} (h : p <+: T.drop s) :
    p <:+ T.take (s + p.length) := by
  obtain ⟨v, hv⟩ := h
  refine ⟨T.take s, ?_⟩
  have h1 : T.take (s + p.length) = T.take s ++ (T.drop s).take p.length := List.take_add T s p.length
  rw [h1, ← hv, List.take_left]

theorem byteIdx_strict_mono {T : List Char} {k k' : Nat} (h1 : k < k') (h2 : k < T.length) :
    byteIdx T k < byteIdx T k' := by
  rw [byteIdx, byteIdx]
  have hsplit : T.take k' = T.take k ++ (T.drop k).take (k' - k) := by
    have hkk : k + (k' - k) = k' := by omega
    rw [← hkk, List.take_add, Nat.add_sub_cancel_left]
  rw [hsplit, byteLen_append]
  have hseg : (T.drop k).take (k' - k) ≠ [] := by
    intro h
    have hlen := congrArg List.length h
    rw [List.length_take, List.length_drop] at hlen
    simp at hlen
    omega
  have hpos : 1 ≤ byteLen ((T.drop k).take (k' - k)) := by
    cases hh : (T.drop k).take (k' - k) with
    | nil => exact absurd hh hseg
    | cons a l =>
      have := utf8Len_pos a
      simp [byteLen]
      omega
  omega

theorem mem_matchOffsets {P : List Str} {T : List Char} {p : Str} {o : Nat} :
    o ∈ matchOffsets P T p ↔ ∃ k, k < T.length ∧ matchedAt P T k p = true ∧
      o = 1 + byteIdx T k - byteLen p := by
  rw [matchOffsets]
  simp only [List.mem_filterMap, List.mem_range]
  constructor
  · rintro ⟨k, hk, h⟩
    split at h
    · exact ⟨k, hk, by assumption, (Option.some.inj h).symm⟩
    · exact absurd h (by simp)
  · rintro ⟨k, hk, hm, rfl⟩
    exact ⟨k, hk, by rw [if_pos hm]⟩

theorem matchOffsets_sorted {P : List Str} {T : List Char} {p : Str}
    (hok : ∀ k, k < T.length → matchedAt P T k p = true → byteLen p ≤ 1 + byteIdx T k) :
    List.Pairwise (· < ·) (matchOffsets P T p) := by
  rw [matchOffsets, List.pairwise_filterMap]
  refine List.Pairwise.imp_of_mem ?_ (List.pairwise_lt_range _)
  intro k k' hk hk' hlt x hx y hy
  split at hx
  · rename_i hmk
    split at hy
    · rename_i hmk'
      obtain rfl : 1 + byteIdx T k - byteLen p = x := Option.some.inj hx
      obtain rfl : 1 + byteIdx T k' - byteLen p = y := Option.some.inj hy
      have h1 := hok k (List.mem_range.mp hk) hmk
      have h2 := byteIdx_strict_mono hlt (List.mem_range.mp hk)
      omega
    · exact absurd hy (by simp)
  · exact absurd hx (by simp)

theorem matchOffsets_nil_of_not_mem {P : List Str} {T : List Char} {p : Str}
    (h : p ∉ P) : matchOffsets P T p = [] := by
  rw [matchOffsets, List.filterMap_eq_nil_iff]
  intro k _
  rw [if_neg]
  intro hm
  exact h (matchedAt_iff.mp hm).1

/-! ### Dependence on the pattern list only through membership -/

theorem bool_eq_of_iff {a b : Bool} (h : a = true ↔ b = true) : a = b := by
  cases a <;> cases b <;> simp_all

theorem isNode_congrP {P₁ P₂ : List Str} (h : ∀ p, p ∈ P₁ ↔ p ∈ P₂) :
    ∀ w, isNode P₁ w = isNode P₂ w := by
  intro w
  refine bool_eq_of_iff ?_
  rw [isNode_iff, isNode_iff]
  constructor
  · rintro (rfl | ⟨p, hp, hw⟩)
    · exact Or.inl rfl
    · exact Or.inr ⟨p, (h p).mp hp, hw⟩
  · rintro (rfl | ⟨p, hp, hw⟩)
    · exact Or.inl rfl
    · exact Or.inr ⟨p, (h p).mpr hp, hw⟩

theorem lms_congrP {P₁ P₂ : List Str} (h : ∀ w, isNode P₁ w = isNode P₂ w) :
    ∀ l, lms P₁ l = lms P₂ l := by
  intro l
  induction l with
  | nil => rfl
  | cons x t ih => rw [lms, lms, h, ih]

theorem matchedAt_congrP {P₁ P₂ : List Str} (hm : ∀ p, p ∈ P₁ ↔ p ∈ P₂)
    (T : List Char) (k : Nat) (p : Str) :
    matchedAt P₁ T k p = matchedAt P₂ T k p := by
  rw [matchedAt, matchedAt, lms_congrP (isNode_congrP hm), decide_eq_decide.mpr (hm p)]

theorem matchOffsets_congrP {P₁ P₂ : List Str} (hm : ∀ p, p ∈ P₁ ↔ p ∈ P₂)
    (T : List Char) (p : Str) :
    matchOffsets P₁ T p = matchOffsets P₂ T p := by
  rw [matchOffsets, matchOffsets]
  apply List.filterMap_congr
  intro k _
  rw [matchedAt_congrP hm]

theorem hasUnderflow_congrP {P₁ P₂ : List Str} (hm : ∀ p, p ∈ P₁ ↔ p ∈ P₂)
    (T : List Char) : hasUnderflow P₁ T ↔ hasUnderflow P₂ T := by
  rw [hasUnderflow, hasUnderflow]
  refine exists_congr fun k => and_congr_right fun _ => exists_congr fun p => ?_
  rw [matchedAt_congrP hm]

/-! ### Single-byte texts: byte offsets agree with symbol offsets -/

/-- Every char of `s` encodes to a single UTF-8 byte. -/
abbrev Ascii (s : Str) : Prop := ∀ c ∈ s, utf8Len c = 1

theorem byteLen_cons (c : Char) (t : Str) : byteLen (c :: t) = utf8Len c + byteLen t := by
  simp [byteLen]

theorem byteLen_eq_length {s : Str} (h : Ascii s) : byteLen s = s.length := by
  induction s with
  | nil => rfl
  | cons c t ih =>
    rw [byteLen_cons, ih (fun x hx => h x (by simp [hx])), h c (by simp), List.length_cons]
    omega

theorem byteIdx_ascii {T : List Char} (h : Ascii T) {k : Nat} (hk : k ≤ T.length) :
    byteIdx T k = k := by
  rw [byteIdx, byteLen_eq_length (fun c hc => h c (List.mem_of_mem_take hc)), List.length_take]
  omega

theorem no_underflow_ascii {P : List Str} {T : List Char}
    (hP : ∀ p ∈ P, Ascii p) (hT : Ascii T) : ¬ hasUnderflow P T := by
  rintro ⟨k, hk, p, hm, hlen⟩
  obtain ⟨hpP, hsuf, -⟩ := matchedAt_iff.mp hm
  have h1 : byteLen p = p.length := byteLen_eq_length (hP p hpP)
  have h2 : byteIdx T k = k := byteIdx_ascii hT (by omega)
  have h3 : p.length ≤ (T.take (k + 1)).length := hsuf.length_le
  rw [List.length_take] at h3
  have h4 : p.length ≤ k + 1 := Nat.le_trans h3 (Nat.min_le_left _ _)
  omega

theorem mem_matchOffsets_ascii {P : List Str} {T : List Char} {p : Str}
    (hP : ∀ q ∈ P, Ascii q) (hT : Ascii T) (hpP : p ∈ P) (hpne : p ≠ []) (s : Nat) :
    s ∈ matchOffsets P T p ↔ p <+: T.drop s := by
  have hplen : byteLen p = p.length := byteLen_eq_length (hP p hpP)
  rw [mem_matchOffsets]
  constructor
  · rintro ⟨k, hk, hm, rfl⟩
    obtain ⟨-, hsuf, -⟩ := matchedAt_iff.mp hm
    obtain ⟨s', hocc, hlen⟩ := matchEnd_to_occurs hsuf
    rw [List.length_take] at hlen
    have hmin : min (k + 1) T.length = k + 1 := by omega
    rw [hmin] at hlen
    have hbyte : byteIdx T k = k := byteIdx_ascii hT (by omega)
    have hsval : s' = 1 + byteIdx T k - byteLen p := by
      rw [hbyte, hplen]
      omega
    rw [← hsval]
    exact hocc
  · intro hocc
    have hple : 1 ≤ p.length := by
      cases p with
      | nil => exact absurd rfl hpne
      | cons a t => simp
    have hfit : s + p.length ≤ T.length := by
      have hl := hocc.length_le
      rw [List.length_drop] at hl
      omega
    have hk1 : (s + p.length - 1) + 1 = s + p.length := by omega
    have hsuf : p <:+ T.take ((s + p.length - 1) + 1) := by
      rw [hk1]
      exact occurs_to_matchEnd hocc
    have hk : s + p.length - 1 < T.length := by omega
    have hbyte : byteIdx T (s + p.length - 1) = s + p.length - 1 := byteIdx_ascii hT (by omega)
    refine ⟨s + p.length - 1, hk, ?_, by rw [hbyte, hplen]; omega⟩
    rw [matchedAt_iff]
    refine ⟨hpP, hsuf, ?_⟩
    cases hlms : lms P (T.take ((s + p.length - 1) + 1)) with
    | some v => rfl
    | none => exact (lms_none hlms p hsuf hpne (node_of_memP hpP)).elim

/-! ### Claim C1 -/

/-- C1, counterexample: with the pattern set `{""}` and text `"a"`, the empty
pattern literally occurs in the text (e.g. at offset 0), yet `find_patterns`
returns an empty map, so not every occurrence of every pattern is recorded. -/
theorem C1_counterexample :
    findPatternsO [([] : Str)] ['a'] = some [] ∧ ([] : Str) <+: (['a'].drop 0) := by
  constructor
  · decide
  · decide

/-- C1, amended: for every pattern set of non-empty single-byte patterns and
every single-byte text, the returned mapping has a key only for patterns of
`P`, and for each `p ∈ P` it records exactly one match per literal occurrence
of `p` in `T` (the offset list is strictly increasing and its members are
exactly the occurrence start offsets), with a key present whenever some
occurrence exists. -/
theorem C1_exact_occurrences (P : List Str) (T : List Char)
    (hP : ∀ p ∈ P, p ≠ [] ∧ Ascii p) (hT : Ascii T) :
    ∃ R, findPatternsO P T = some R ∧
      (∀ p, p ∉ P → alookup R p = none) ∧
      (∀ p ∈ P, ∀ l, alookup R p = some l →
        List.Pairwise (· < ·) l ∧ ∀ s, s ∈ l ↔ p <+: T.drop s) ∧
      (∀ p ∈ P, (∃ s, p <+: T.drop s) → (alookup R p).isSome = true) := by
  have hno : ¬ hasUnderflow P T := no_underflow_ascii (fun p hp => (hP p hp).2) hT
  obtain ⟨hiff, hchar⟩ := findPatterns_spec P T
  cases hfp : findPatternsO P T with
  | none => exact absurd (hiff.mp hfp) hno
  | some R =>
    obtain ⟨hlook, hnd⟩ := hchar R hfp
    refine ⟨R, rfl, ?_, ?_, ?_⟩
    · intro p hp
      rw [hlook p, matchOffsets_nil_of_not_mem hp]
      rfl
    · intro p hpP l hl
      rw [hlook p] at hl
      have hl' : l = matchOffsets P T p := by
        rw [optList] at hl
        split at hl
        · exact absurd hl (by simp)
        · exact (Option.some.inj hl).symm
      subst hl'
      constructor
      · refine matchOffsets_sorted ?_
        intro k hk hm
        by_contra hcon
        exact hno ⟨k, hk, p, hm, by omega⟩
      · intro s
        exact mem_matchOffsets_ascii (fun q hq => (hP q hq).2) hT hpP (hP p hpP).1 s
    · rintro p hpP ⟨s, hocc⟩
      rw [hlook p]
      have hmem : s ∈ matchOffsets P T p :=
        (mem_matchOffsets_ascii (fun q hq => (hP q hq).2) hT hpP (hP p hpP).1 s).mpr hocc
      rw [optList, if_neg (by intro h; rw [h] at hmem; simp at hmem)]
      rfl

/-- C1, witness: the amended theorem applied to patterns `{"a"}`, text `"ab"`. -/
theorem C1_witness :
    ((∀ p ∈ [['a']], p ≠ [] ∧ Ascii p) ∧ Ascii ['a', 'b']) ∧
    (∃ R, findPatternsO [['a']] ['a', 'b'] = some R ∧
      (∀ p, p ∉ [['a']] → alookup R p = none) ∧
      (∀ p ∈ [['a']], ∀ l, alookup R p = some l →
        List.Pairwise (· < ·) l ∧ ∀ s, s ∈ l ↔ p <+: (['a', 'b'].drop s)) ∧
      (∀ p ∈ [['a']], (∃ s, p <+: (['a', 'b'].drop s)) → (alookup R p).isSome = true)) :=
  ⟨⟨by decide, by decide⟩, C1_exact_occurrences [['a']] ['a', 'b'] (by decide) (by decide)⟩

/-! ### Claim C2 -/

/-- C2: the operations are not total — building from the multi-byte pattern
`"é"` succeeds, but `find_patterns` on the text `"é"` hits the `usize`
underflow in `1 + i - pattern.len()` (byte index 0, byte length 2) and
panics, modelled as `none`. -/
theorem C2_underflow_bug :
    (PatternFinder.new [['é']]).isSome = true ∧ findPatternsO [['é']] ['é'] = none := by
  constructor
  · decide
  · decide

/-! ### Claim C3 -/

/-- C3, counterexample: pattern `"a"`, text `"éa"`.  The single occurrence of
`"a"` is at symbol position 1 (so the claimed symbol-unit offset is 1), but
the code records offset 2, the byte offset produced by `char_indices`. -/
theorem C3_counterexample :
    (findPatternsO [['a']] ['é', 'a']).bind (fun r => alookup r ['a']) = some [2] ∧
    (List.range (['é', 'a'].length)).filter
      (fun s => List.isPrefixOf ['a'] (['é', 'a'].drop s)) = [1] ∧
    (2 : Nat) ≠ 1 := by
  refine ⟨by decide, by decide, by decide⟩

/-- The symbol-unit offset list demanded by the specification: a match of `p`
ending at symbol position `k` is recorded at `k + 1 − length(p)`, both counted
in code points.  Modelled from the spec for comparison with the code. -/
def symOffsets (P : List Str) (t : List Char) (p : Str) : List Nat :=
  (List.range t.length).filterMap
    (fun k => if matchedAt P t k p then some (k + 1 - p.length) else none)

/-- C3, amended: offsets are byte-based (`i` is the byte offset of the symbol
and `length` the byte length), which coincides with the claimed symbol-unit
positions exactly when text and patterns are single-byte: then every key of
the result maps to the symbol-unit offset list. -/
theorem C3_symbol_units_ascii (P : List Str) (T : List Char)
    (hP : ∀ p ∈ P, Ascii p) (hT : Ascii T) (R : MatchRes)
    (hR : findPatternsO P T = some R) :
    ∀ p ∈ P, alookup R p = optList (symOffsets P T p) := by
  obtain ⟨-, hchar⟩ := findPatterns_spec P T
  obtain ⟨hlook, -⟩ := hchar R hR
  intro p hp
  rw [hlook p]
  congr 1
  rw [matchOffsets, symOffsets]
  apply List.filterMap_congr
  intro k hk
  rw [List.mem_range] at hk
  by_cases hm : matchedAt P T k p = true
  · rw [if_pos hm, if_pos hm, byteIdx_ascii hT (by omega), byteLen_eq_length (hP p hp)]
    congr 1
    omega
  · rw [if_neg hm, if_neg hm]

/-- C3, witness: patterns `{"a"}`, text `"aa"`. -/
theorem C3_witness :
    ((∀ p ∈ [['a']], Ascii p) ∧ Ascii ['a', 'a'] ∧
      findPatternsO [['a']] ['a', 'a'] = some [(['a'], [0, 1])]) ∧
    (∀ p ∈ [['a']], alookup [(['a'], [0, 1])] p =
      optList (symOffsets [['a']] ['a', 'a'] p)) :=
  ⟨⟨by decide, by decide, by decide⟩,
    C3_symbol_units_ascii [['a']] ['a', 'a'] (by decide) (by decide) _ (by decide)⟩

/-! ### Claims C4 and C5: structure of the built automaton -/

theorem failOf_eq {P : List Str} {pf : PatternFinder} (h : PatternFinder.new P = some pf) :
    ∀ w, failOf P w = pf.fail w := by
  intro w
  rw [failOf, h]

theorem outOf_eq {P : List Str} {pf : PatternFinder} (h : PatternFinder.new P = some pf) :
    ∀ w, outOf P w = pf.out w := by
  intro w
  rw [outOf, h]

/-- C4: after construction, every state with a failure link has an output set
containing its failure target's whole output set. -/
theorem C4_output_superset (P : List Str) (w f : Str) (h : failOf P w = some f) :
    ∀ p ∈ outOf P f, p ∈ outOf P w := by
  obtain ⟨pf, hnew, hpats, hB⟩ := new_built P
  rw [failOf_eq hnew] at h
  intro p hp
  rw [outOf_eq hnew] at hp ⊢
  obtain ⟨hwnode, hwne, hf⟩ := hB.sound w f h
  subst hf
  have hfnode : isNode P (idealFail P w) = true := idealFail_node P w
  rw [(hB.ochar _ hfnode).2 p] at hp
  rw [(hB.ochar w hwnode).2 p]
  exact ⟨hp.1, hp.2.trans idealFail_suffix⟩

/-- C4, witness: patterns `{"a","aa"}`, state `"aa"`, failure target `"a"`. -/
theorem C4_witness :
    failOf [['a'], ['a', 'a']] ['a', 'a'] = some ['a'] ∧
    ['a'] ∈ outOf [['a'], ['a', 'a']] ['a'] ∧
    ['a'] ∈ outOf [['a'], ['a', 'a']] ['a', 'a'] :=
  ⟨by decide, by decide,
    C4_output_superset [['a'], ['a', 'a']] ['a', 'a'] ['a'] (by decide) ['a'] (by decide)⟩

theorem failIter_reaches_root {P : List Str} :
    ∀ (n : Nat) (w : Str), isNode P w = true → w.length ≤ n →
      failIter P n w = some [] := by
  intro n
  induction n with
  | zero =>
    intro w _ hlen
    obtain rfl := List.length_eq_zero.mp (Nat.le_zero.mp hlen)
    rfl
  | succ n ih =>
    intro w hnode hlen
    rcases eq_or_ne w [] with rfl | hne
    · rw [failIter, if_pos rfl]
    · rw [failIter, if_neg hne]
      obtain ⟨pf, hnew, hpats, hB⟩ := new_built P
      obtain ⟨g, hg⟩ := Option.isSome_iff_exists.mp (hB.complete w hnode hne)
      obtain ⟨-, -, rfl⟩ := hB.sound w g hg
      rw [failOf_eq hnew, hg]
      show failIter P n (idealFail P w) = some []
      refine ih _ (idealFail_node P w) ?_
      have := idealFail_length (P := P) hne
      omega

theorem nextOf_stable (P : List Str) (w : Str) (x : Char) {fuel : Nat}
    (h : w.length + 1 ≤ fuel) : nextOf P fuel w x = nextOf P (w.length + 1) w x := by
  obtain ⟨pf, hnew, hpats, hB⟩ := new_built P
  rw [nextOf, nextOf, hnew]
  show nextState P pf.fail fuel w x = nextState P pf.fail (w.length + 1) w x
  by_cases hnode : isNode P w = true
  · have hbelow : SetBelow P pf.fail w.length := fun u hn hne _ => hB.complete u hn hne
    rw [nextState_ideal hB.sound hbelow w.length w le_rfl le_rfl hnode fuel h x,
      nextState_ideal hB.sound hbelow w.length w le_rfl le_rfl hnode (w.length + 1)
        le_rfl x]
  · obtain ⟨m, rfl⟩ : ∃ m, fuel = m + 1 := ⟨fuel - 1, by omega⟩
    have hfmw : pf.fail w = none := by
      cases hf : pf.fail w with
      | none => rfl
      | some v => exact absurd (hB.sound w v hf).1 hnode
    rw [nextState, nextState, hfmw]

/-- C5: every stored failure link strictly decreases the trie depth, every
node's failure chain reaches the root within `depth` steps, and the recursive
`next_state` resolution is fuel-independent (terminates) at every state. -/
theorem C5_fail_decreases_and_terminates (P : List Str) (w f : Str) (x : Char)
    (fuel : Nat) :
    (failOf P w = some f → f.length < w.length) ∧
    (isNode P w = true → failIter P w.length w = some []) ∧
    (w.length + 1 ≤ fuel → nextOf P fuel w x = nextOf P (w.length + 1) w x) := by
  refine ⟨?_, ?_, fun h => nextOf_stable P w x h⟩
  · intro h
    obtain ⟨pf, hnew, hpats, hB⟩ := new_built P
    rw [failOf_eq hnew] at h
    obtain ⟨-, hne, rfl⟩ := hB.sound w f h
    exact idealFail_length hne
  · intro hn
    exact failIter_reaches_root w.length w hn le_rfl

/-- C5, witness: patterns `{"a","aa"}`, state `"aa"`. -/
theorem C5_witness :
    ((['a'] : Str).length < (['a', 'a'] : Str).length) ∧
    (failIter [['a'], ['a', 'a']] (['a', 'a'] : Str).length ['a', 'a'] = some []) ∧
    (nextOf [['a'], ['a', 'a']] 5 ['a', 'a'] 'a'
      = nextOf [['a'], ['a', 'a']] ((['a', 'a'] : Str).length + 1) ['a', 'a'] 'a') :=
  ⟨(C5_fail_decreases_and_terminates [['a'], ['a', 'a']] ['a', 'a'] ['a'] 'a' 5).1
      (by decide),
   (C5_fail_decreases_and_terminates [['a'], ['a', 'a']] ['a', 'a'] ['a'] 'a' 5).2.1
      (by decide),
   (C5_fail_decreases_and_terminates [['a'], ['a', 'a']] ['a', 'a'] ['a'] 'a' 5).2.2
      (by decide)⟩

/-! ### Claim C6: duplicate patterns collapse -/

/-- C6: `find_patterns` behaves on a pattern list exactly as on its
deduplication — same panic behaviour, duplicate-free result keys, and the
same offset list per pattern — so duplicates collapse to a single key with
the same offsets as if given once. -/
theorem C6_duplicates_collapse (P : List Str) (T : List Char) :
    ((findPatternsO P T = none) ↔ (findPatternsO P.dedup T = none)) ∧
    (∀ R, findPatternsO P T = some R → (R.map Prod.fst).Nodup ∧
      ∀ R', findPatternsO P.dedup T = some R' → ∀ p, alookup R p = alookup R' p) := by
  have hm : ∀ p : Str, p ∈ P ↔ p ∈ P.dedup := fun p => (List.mem_dedup).symm
  obtain ⟨hiff1, hchar1⟩ := findPatterns_spec P T
  obtain ⟨hiff2, hchar2⟩ := findPatterns_spec P.dedup T
  constructor
  · rw [hiff1, hiff2, hasUnderflow_congrP hm]
  · intro R hR
    obtain ⟨hlook, hnd⟩ := hchar1 R hR
    refine ⟨hnd, ?_⟩
    intro R' hR' p
    obtain ⟨hlook', -⟩ := hchar2 R' hR'
    rw [hlook p, hlook' p, matchOffsets_congrP hm]

/-- C6, witness: the duplicate pattern list `{"a","a"}` on text `"a"`. -/
theorem C6_witness :
    findPatternsO [['a'], ['a']] ['a'] = some [(['a'], [0])] ∧
    ((([(['a'], [0])] : MatchRes).map Prod.fst).Nodup ∧
      ∀ p, alookup [(['a'], [0])] p = alookup [(['a'], [0])] p) :=
  ⟨by decide,
    ⟨((C6_duplicates_collapse [['a'], ['a']] ['a']).2 [(['a'], [0])] (by decide)).1,
     fun p => ((C6_duplicates_collapse [['a'], ['a']] ['a']).2 [(['a'], [0])]
        (by decide)).2 [(['a'], [0])] (by decide) p⟩⟩

/-! ### Claim C7: sorted offsets, absent empty keys -/

/-- C7: in any returned mapping, every key's offset list is strictly
increasing, and a pattern that occurs nowhere in the text has no key at all. -/
theorem C7_sorted_and_absent (P : List Str) (T : List Char) (R : MatchRes)
    (hR : findPatternsO P T = some R) :
    (∀ p l, alookup R p = some l → List.Pairwise (· < ·) l) ∧
    (∀ p, (∀ s, ¬ p <+: T.drop s) → alookup R p = none) := by
  obtain ⟨hiff, hchar⟩ := findPatterns_spec P T
  obtain ⟨hlook, -⟩ := hchar R hR
  have hnou : ¬ hasUnderflow P T := by
    intro h
    rw [← hiff, hR] at h
    exact absurd h (by simp)
  constructor
  · intro p l hl
    rw [hlook p] at hl
    have hl' : l = matchOffsets P T p := by
      rw [optList] at hl
      split at hl
      · exact absurd hl (by simp)
      · exact (Option.some.inj hl).symm
    subst hl'
    refine matchOffsets_sorted ?_
    intro k hk hm
    by_contra hcon
    exact hnou ⟨k, hk, p, hm, by omega⟩
  · intro p hocc
    rw [hlook p]
    have hempty : matchOffsets P T p = [] := by
      rw [matchOffsets, List.filterMap_eq_nil_iff]
      intro k _
      rw [if_neg]
      intro hm
      obtain ⟨-, hsuf, -⟩ := matchedAt_iff.mp hm
      rcases eq_or_ne p [] with rfl | hne
      · exact hocc 0 List.nil_prefix
      · obtain ⟨s, hoc, -⟩ := matchEnd_to_occurs hsuf
        exact hocc s hoc
    rw [hempty]
    rfl

/-- C7, witness: patterns `{"a","b"}`, text `"aca"`. -/
theorem C7_witness :
    findPatternsO [['a'], ['b']] ['a', 'c', 'a'] = some [(['a'], [0, 2])] ∧
    List.Pairwise (· < ·) [0, 2] ∧
    alookup [(['a'], [0, 2])] ['b'] = none :=
  ⟨by decide,
   (C7_sorted_and_absent [['a'], ['b']] ['a', 'c', 'a'] [(['a'], [0, 2])]
      (by decide)).1 ['a'] [0, 2] (by decide),
   (C7_sorted_and_absent [['a'], ['b']] ['a', 'c', 'a'] [(['a'], [0, 2])]
      (by decide)).2 ['b'] (by
        intro s h
        have h1 : 'b' ∈ List.drop s ['a', 'c', 'a'] := h.subset (by simp)
        have h2 := List.mem_of_mem_drop h1
        simp at h2)⟩

/-! ### Claim C8: determinism -/

/-- C8: matching is a function of the pattern set: automata built from two
lists with the same members (in particular, two independent builds from the
same set) panic together and otherwise return mappings with identical
per-pattern offset lists on every text. -/
theorem C8_determinism (P₁ P₂ : List Str) (T : List Char)
    (hm : ∀ p, p ∈ P₁ ↔ p ∈ P₂) :
    ((findPatternsO P₁ T = none) ↔ (findPatternsO P₂ T = none)) ∧
    (∀ R₁ R₂, findPatternsO P₁ T = some R₁ → findPatternsO P₂ T = some R₂ →
      ∀ p, alookup R₁ p = alookup R₂ p) := by
  obtain ⟨hiff1, hchar1⟩ := findPatterns_spec P₁ T
  obtain ⟨hiff2, hchar2⟩ := findPatterns_spec P₂ T
  constructor
  · rw [hiff1, hiff2, hasUnderflow_congrP hm]
  · intro R₁ R₂ hR₁ hR₂ p
    obtain ⟨hlook1, -⟩ := hchar1 R₁ hR₁
    obtain ⟨hlook2, -⟩ := hchar2 R₂ hR₂
    rw [hlook1 p, hlook2 p, matchOffsets_congrP hm]

/-- C8, witness: the same pattern set `{"a","b"}` given in two orders, on
text `"ab"`. -/
theorem C8_witness :
    (∀ p : Str, p ∈ [['a'], ['b']] ↔ p ∈ [['b'], ['a']]) ∧
    findPatternsO [['a'], ['b']] ['a', 'b'] = some [(['a'], [0]), (['b'], [1])] ∧
    findPatternsO [['b'], ['a']] ['a', 'b'] = some [(['a'], [0]), (['b'], [1])] ∧
    (∀ p, alookup [(['a'], [0]), (['b'], [1])] p
      = alookup [(['a'], [0]), (['b'], [1])] p) :=
  ⟨fun p => by simp [or_comm], by decide, by decide,
    (C8_determinism [['a'], ['b']] [['b'], ['a']] ['a', 'b']
        (fun p => by simp [or_comm])).2
      [(['a'], [0]), (['b'], [1])] [(['a'], [0]), (['b'], [1])] (by decide) (by decide)⟩

/-! ### Claim C9: failed transitions reset to the root and record nothing -/

/-- C9: when no transition resolves at a position, the scan resets the
current state to the root and records no match there, even though the root's
output may hold the empty pattern; consequently every offset recorded for the
empty pattern comes from a position whose transition succeeded. -/
theorem C9_reset_records_nothing (P : List Str) (fm : FailMap) (om : OutMap)
    (s : Str) (i : Nat) (res : MatchRes) (c : Char) (rest : List Char)
    (h : nextState P fm (s.length + 1) s c = none) :
    findPatternsGo P fm om (c :: rest) s i res
      = findPatternsGo P fm om rest [] (i + utf8Len c) res ∧
    (∀ T R l, findPatternsO P T = some R → alookup R [] = some l →
      ∀ o ∈ l, ∃ k, k < T.length ∧ (lms P (T.take (k + 1))).isSome = true ∧
        o = 1 + byteIdx T k) := by
  constructor
  · rw [findPatternsGo, h]
  · intro T R l hR hl o ho
    obtain ⟨-, hchar⟩ := findPatterns_spec P T
    obtain ⟨hlook, -⟩ := hchar R hR
    rw [hlook] at hl
    have hl' : l = matchOffsets P T [] := by
      rw [optList] at hl
      split at hl
      · exact absurd hl (by simp)
      · exact (Option.some.inj hl).symm
    subst hl'
    obtain ⟨k, hk, hmk, hval⟩ := mem_matchOffsets.mp ho
    obtain ⟨-, -, hsome⟩ := matchedAt_iff.mp hmk
    refine ⟨k, hk, hsome, ?_⟩
    rw [hval]
    simp [byteLen]

/-- C9, witness: patterns `{"","b"}` on text `"a"`: the transition on `'a'`
fails from the root, the state resets and nothing is recorded even though
the root's output holds the empty pattern; and on text `"b"` the empty
pattern is recorded only at the succeeding position. -/
theorem C9_witness :
    nextState [([] : Str), ['b']] (fun _ => none) 1 [] 'a' = none ∧
    findPatternsGo [([] : Str), ['b']] (fun _ => none) (fun _ => []) ['a'] [] 0 []
      = findPatternsGo [([] : Str), ['b']] (fun _ => none) (fun _ => []) []
          [] (0 + utf8Len 'a') [] :=
  ⟨by decide,
   (C9_reset_records_nothing [([] : Str), ['b']] (fun _ => none) (fun _ => []) [] 0 []
      'a' [] (by decide)).1⟩

example : findPatternsO [['a']] ['a', 'a'] = some [(['a'], [0, 1])] := by decide

example :
    (findPatternsO [['f', 'o', 'o'], ['o', 'o', 'f'], ['o']]
      ['f', 'o', 'o', 'f']).bind (fun r => alookup r ['f', 'o', 'o']) = some [0] := by
  decide

example :
    (findPatternsO [['f', 'o', 'o'], ['o', 'o', 'f'], ['o']]
      ['f', 'o', 'o', 'f']).bind (fun r => alookup r ['o', 'o', 'f']) = some [1] := by
  decide

example :
    (findPatternsO [['f', 'o', 'o'], ['o', 'o', 'f'], ['o']]
      ['f', 'o', 'o', 'f']).bind (fun r => alookup r ['o']) = some [1, 2] := by
  decide

example : findPatternsO [['é']] ['é'] = none := by decide

example : findPatternsO [([] : Str)] ['a'] = some [] := by decide

end AhoCorasick
